import Mathlib

/-!
Verification of the ptvn-data-validator core: the spec-string codec
(`app/utils/spec_parser.py`), the per-row fixer pipeline
(`app/services/fixer_service.py` together with `app/services/llm_service.py`
and `app/services/ragflow_service.py`), and the batch scheduler
(`app/pipeline/pipeline.py`, `app/fastapi/api/routers/pipeline.py`).

Strings are modelled as `List Char` (`Str`), and the Python string
operations used by the code (`strip`, `split`, `split(sep, 1)`,
`replace(" ", "")`, `lower`, `join`) are given explicit recursive
definitions mirroring CPython semantics on the character sets the
repository manipulates.
-/

namespace PTVN

/-- Strings as lists of characters. -/
abbrev Str := List Char

/-- The whitespace characters recognised by Python `str.strip()` that occur
in this repository's data (space, tab, newline, carriage return). -/
def isWS (c : Char) : Bool :=
  c = ' ' || c = '\t' || c = '\n' || c = '\r'

/-- Python `str.lstrip()`: drop leading whitespace. -/
def trimL (s : Str) : Str := s.dropWhile isWS

/-- Python `str.rstrip()`: drop trailing whitespace. -/
def trimR (s : Str) : Str := (s.reverse.dropWhile isWS).reverse

/-- Python `str.strip()`: drop leading and trailing whitespace. -/
def trimS (s : Str) : Str := trimR (trimL s)

/-- Python `str.split(sep)` for a one-character separator: the list of
(possibly empty) chunks between separator occurrences; `"".split(sep) = [""]`. -/
def splitOnC (c : Char) : Str → List Str
  | [] => [[]]
  | x :: xs =>
    if x = c then [] :: splitOnC c xs
    else
      match splitOnC c xs with
      | [] => [[x]]
      | y :: ys => (x :: y) :: ys

/-- Python `str.split(sep, 1)` for a one-character separator, in the case
where the separator occurs: `some (before, after)`; `none` when the
separator does not occur (Python returns a one-element list there). -/
def splitFirst (c : Char) : Str → Option (Str × Str)
  | [] => none
  | x :: xs =>
    if x = c then some ([], xs)
    else (splitFirst c xs).map (fun p => (x :: p.1, p.2))

/-- Python `sep.join(chunks)` for a one-character separator. -/
def intercalateC (c : Char) : List Str → Str
  | [] => []
  | [x] => x
  | x :: xs => x ++ c :: intercalateC c xs

/-- Python `str.replace(ch, "")`: remove every occurrence of one character. -/
def removeAll (c : Char) (s : Str) : Str :=
  s.filter (fun x => x ≠ c)

/-- Python `str.lower()` on one character, on the ASCII range the
repository's keys and values use. -/
def lowerChar (c : Char) : Char :=
  if 65 ≤ c.toNat ∧ c.toNat ≤ 90 then Char.ofNat (c.toNat + 32) else c

/-- Python `str.lower()`. -/
def lowerStr (s : Str) : Str :=
  s.map lowerChar

/-- Python truthiness of a string: non-empty. -/
def pyTruthy (s : Str) : Bool := s ≠ []

/-- Python `not s or not s.strip()`: the blank test used by the short-circuits in
`llm_service.py`. -/
def pyBlank (s : Str) : Bool := s = [] || trimS s = []

/-! ## `app/utils/spec_parser.py` -/

/-- Model of `_clean_spec_pred` (spec_parser.py lines 5-21): `none` models Python
`None`/NaN input; a string input is stripped and rejected when empty or
(case-insensitively) the literal token `"nan"`. -/
def cleanSpecPred : Option Str → Option Str
  | none => none
  | some s =>
    let t := trimS s
    if t = [] ∨ lowerStr t = "nan".toList then none else some t

/-- Python `dict` assignment `d[k] = v` on an insertion-ordered
association list: overwrite the value in place if the key is present,
otherwise append. -/
def insertOrUpdate (l : List (Str × Str)) (k v : Str) : List (Str × Str) :=
  if l.any (fun kv => kv.1 = k) then
    l.map (fun kv => if kv.1 = k then (k, v) else kv)
  else
    l ++ [(k, v)]

/-- Python `dict.get(k)`. -/
def dictGet (l : List (Str × Str)) (k : Str) : Option Str :=
  (l.find? (fun kv => kv.1 = k)).map (fun kv => kv.2)

/-- One segment of the `parse_spec` loop viewed as data: strip the
segment, return `none` when it is empty or has no space (those segments
are skipped with `continue`), otherwise the `(key, value)` from splitting
on the first space. -/
def segPair (p : Str) : Option (Str × Str) :=
  let p' := trimS p
  if p' = [] then none else splitFirst ' ' p'

/-- Python `dict` assignment of one key/value pair. -/
def dinsert (acc : List (Str × Str)) (kv : Str × Str) : List (Str × Str) :=
  insertOrUpdate acc kv.1 kv.2

/-- The per-segment step of the `parse_spec` loop. -/
def parseStep (acc : List (Str × Str)) (p : Str) : List (Str × Str) :=
  match segPair p with
  | none => acc
  | some kv => dinsert acc kv

/-- Model of `parse_spec` (spec_parser.py lines 24-48): clean the input, split on
`|`, and fold the segments into an insertion-ordered dict. -/
def parse_spec (x : Option Str) : List (Str × Str) :=
  match cleanSpecPred x with
  | none => []
  | some t => (splitOnC '|' t).foldl parseStep []

/-- Shorthand for `parse_spec` applied to a genuine string input. -/
def parseSpecS (s : Str) : List (Str × Str) :=
  parse_spec (some s)

/-- The raw `(key, value)` pairs of the segments of a spec string, in
segment order, before the dict loop deduplicates keys. -/
def seg_pairs (x : Option Str) : List (Str × Str) :=
  match cleanSpecPred x with
  | none => []
  | some t => (splitOnC '|' t).filterMap segPair

/-- The key sequence of a dict, in iteration order. -/
def keys (l : List (Str × Str)) : List Str := l.map Prod.fst

/-- The key sequence that a Python dict-building loop produces: first
occurrences, in order, of keys not already seen. -/
def firstDedup (seen : List Str) : List Str → List Str
  | [] => []
  | k :: ks => if k ∈ seen then firstDedup seen ks else k :: firstDedup (k :: seen) ks

/-- Shape facts true of every `(key, value)` pair built by the
`parse_spec` loop: the key is non-empty, contains no space and no pipe and
starts with a non-whitespace character; the value is non-empty, contains
no pipe and ends with a non-whitespace character. -/
def goodPair (kv : Str × Str) : Prop :=
  kv.1 ≠ [] ∧ (∀ c ∈ kv.1, c ≠ ' ' ∧ c ≠ '|') ∧
  (∀ x, kv.1.head? = some x → isWS x = false) ∧
  kv.2 ≠ [] ∧ ('|' ∉ kv.2) ∧
  (∀ x, kv.2.getLast? = some x → isWS x = false)


/-- Model of `extract_item` (spec_parser.py lines 51-61): the `item` value, or
`none` (modelling `np.nan`) when missing, empty, or `"-"` after strip. -/
def extract_item (x : Option Str) : Option Str :=
  match dictGet (parse_spec x) "item".toList with
  | none => none
  | some v =>
    if v = [] ∨ trimS v = "-".toList ∨ trimS v = [] then none else some v

/-- Rendering of a list of `(key, value)` pairs as the Python code does
it: each pair becomes `f"{key} {value}"` and the pair strings are joined
with `"|"`. -/
def renderPairs (l : List (Str × Str)) : Str :=
  intercalateC '|' (l.map (fun kv => kv.1 ++ ' ' :: kv.2))

/-- The per-pair step of `fix_spec_format`: strip the pair, split on the
first space, drop pairs without a space, remove all spaces from key and
value and lowercase both. -/
def fmtPair (pair : Str) : Option (Str × Str) :=
  (splitFirst ' ' (trimS pair)).map
    (fun kv => (lowerStr (removeAll ' ' kv.1), lowerStr (removeAll ' ' kv.2)))

/-- Model of `fix_spec_format` (spec_parser.py lines 66-82). -/
def fix_spec_format (s : Str) : Str :=
  if s = [] then s
  else renderPairs ((splitOnC '|' s).filterMap fmtPair)

/-- Model of `align_spec_keys` (spec_parser.py lines 116-134): keep exactly the
original spec's keys in order, taking each value from the candidate when
present and `"-"` otherwise. -/
def align_spec_keys (original fixed : Str) : Str :=
  let od := parseSpecS original
  if od = [] then []
  else
    let fd := parseSpecS fixed
    renderPairs (od.map (fun kv => (kv.1, (dictGet fd kv.1).getD "-".toList)))

/-! ## `app/services/ragflow_service.py` -/

/-- Python `x or y` on a string-or-`None` value: `y` when `x` is `None` or
the empty (falsy) string. -/
def pyOr (a b : Option Str) : Option Str :=
  match a with
  | some s => if s = [] then b else some s
  | none => b

/-- One retrieval record, at the shape `_extract_spec_patterns` probes:
the optional `spec` / `Spec` fields, the optional `metadata` mapping
(restricted to its `spec` / `Spec` entries, the only ones read), and the
raw chunk `content` text.  The raw record also carries a `similarity`
float, which `_extract_spec_patterns` never reads and therefore drops. -/
structure RagRec where
  spec : Option Str
  specCap : Option Str
  metadata : Option (Option Str × Option Str)
  content : Str

/-- Model of `_parse_chunk_text` (ragflow_service.py lines 61-94) for quote-free
chunk text: empty or colon-free text gives the empty dict; otherwise the
text splits on the first colon into a comma-separated header row and value
row, both stripped entrywise, zipped into a dict.  (The `csv.reader`
quoting rules are not exercised by quote-free text.) -/
def parse_chunk_text (text : Str) : List (Str × Str) :=
  if text = [] ∨ ':' ∉ text then []
  else
    match splitFirst ':' text with
    | none => []
    | some (hp, vp) =>
      let headers := (splitOnC ',' hp).map trimS
      let values := (splitOnC ',' vp).map trimS
      (headers.zip values).foldl dinsert []

/-- The spec text `_extract_spec_patterns` reads off one record:
`rec.get("spec") or rec.get("Spec")`, falling back to the metadata
mapping when that is `None`, then to the parsed chunk content. -/
def recSpec (r : RagRec) : Option Str :=
  let s1 := pyOr r.spec r.specCap
  let s2 : Option Str :=
    match s1 with
    | some v => some v
    | none =>
      match r.metadata with
      | some m => pyOr m.1 m.2
      | none => none
  match s2 with
  | some v => some v
  | none =>
    let row := parse_chunk_text r.content
    pyOr (dictGet row "spec".toList) (dictGet row "\"spec\"".toList)

/-- Model of `_extract_spec_patterns` (ragflow_service.py lines 144-187): the
truthy spec texts of the records, in order — a `List[str]`. -/
def extract_spec_patterns (rs : List RagRec) : List Str :=
  rs.filterMap (fun r =>
    match recSpec r with
    | some s => if s = [] then none else some s
    | none => none)

/-! ## `app/services/fixer_service.py` / `app/services/llm_service.py` -/

/-- Outcome of one external call as the caller's `try` block sees it:
a value, an `asyncio.TimeoutError`, or any other raised exception. -/
inductive GWRes (α : Type) where
  | ok (val : α)
  | timeout
  | exn
deriving DecidableEq

/-- The external calls `fix_row` can issue, used to record which
gateways a run actually consulted. -/
inductive GatewayCall where
  | predictItem
  | ragRetrieve
  | fixSpec
  | removeMulti
  | validateSpec
deriving DecidableEq

/-- Exceptions that can escape `fix_row`. -/
inductive PyErr where
  | attributeError
  | gatewayError
deriving DecidableEq

/-- Behaviour of the external collaborators for one `fix_row` invocation:
the structured result field of each language-model call, and the
retrieval response (already `[]` on retrieval error/timeout, which
`_retrieve` swallows). -/
structure Oracle where
  predictItem : GWRes Str
  ragRecords : List RagRec
  fixSpec : GWRes Str
  removeMulti : GWRes Str
  validateSpec : GWRes Str

/-- One input record (`RowIn` in `app/fastapi/api/models.py`):
`description` required, `spec_pred` and `category` optional. -/
structure Row where
  description : Str
  spec_pred : Option Str
  category : Option Str
deriving DecidableEq

/-- The per-row result dict `fix_row` returns / `FixRowOut`. -/
structure FixResult where
  item_pred : Option Str
  item_extracted : Option Str
  spec_pred_fixed : Option Str
  category_fixed : Option Str
  spec_changed : Bool
  category_changed : Bool
deriving DecidableEq

/-- fixer_service.py lines 172-183: `spec_patterns_data.sort(key=lambda
x: x.get("similarity", 0) or 0)` followed by the similarity-prefixed
rendering loop.  `spec_patterns_data` is the `List[str]` produced by
`RagFlowService.get_spec_patterns_by_query` (`_extract_spec_patterns`),
so on a non-empty list the first `x.get` attribute lookup inside `sort`
raises `AttributeError`; on an empty list `sort` compares nothing, the
loop body never runs, and the joined pattern text is empty. -/
def sortRenderPatterns (data : List Str) : Except PyErr Str :=
  match data with
  | [] => .ok []
  | _ :: _ => .error .attributeError

/-- Model of `_normalize_for_compare` (fixer_service.py lines 71-81) on a
string-or-absent value. -/
def normalize_for_compare (v : Option Str) : Str :=
  match v with
  | none => []
  | some s => trimS s

/-- The `item_pred` value stage 1 leaves behind: the gateway's value, or
absent on timeout (a non-timeout failure never reaches this point). -/
def predictVal (o : Oracle) : Option Str :=
  match o.predictItem with
  | .ok v => some v
  | .timeout => none
  | .exn => none

/-- Stage 4's `try` outcome: the short-circuit value on blank input,
otherwise the gateway outcome. -/
def stage4Res (o : Oracle) (orig : Str) : GWRes Str :=
  if pyBlank orig then .ok [] else o.fixSpec

/-- Value of `spec_after_fix`. -/
def stage4Spec (o : Oracle) (orig : Str) : Str :=
  match stage4Res o orig with
  | .ok v => v
  | .timeout => orig
  | .exn => orig

/-- Stage 5's `try` outcome. -/
def stage5Res (o : Oracle) (orig : Str) : GWRes Str :=
  if pyBlank (stage4Spec o orig) then .ok [] else o.removeMulti

/-- Value of `spec_after_remove_items`. -/
def stage5Spec (o : Oracle) (orig : Str) : Str :=
  match stage5Res o orig with
  | .ok v => v
  | .timeout => stage4Spec o orig
  | .exn => stage4Spec o orig

/-- Stage 6's `try` outcome. -/
def stage6Res (o : Oracle) (orig : Str) : GWRes Str :=
  if pyBlank (stage5Spec o orig) then .ok [] else o.validateSpec

/-- The final spec after stages 6 and 7: aligned when the validate call
returned, stage 5's output unaligned when it timed out or raised. -/
def finalSpec (o : Oracle) (orig : Str) : Str :=
  match stage6Res o orig with
  | .ok v => align_spec_keys orig (fix_spec_format v)
  | .timeout => stage5Spec o orig
  | .exn => stage5Spec o orig

/-- The gateway calls stages 4-6 issue. -/
def stageLog (o : Oracle) (orig : Str) : List GatewayCall :=
  (if pyBlank orig then [] else [.fixSpec]) ++
  ((if pyBlank (stage4Spec o orig) then [] else [.removeMulti]) ++
   (if pyBlank (stage5Spec o orig) then [] else [.validateSpec]))

/-- Model of `fix_row` (fixer_service.py lines 86-287), with the short-circuits of
`llm_service.afix_spec` / `aremove_multi_items` / `avalidate_spec`
(llm_service.py lines 88-90, 149-151, 175-177) and the
`ValidateSpecResult` normalizing validator (spec_models.py lines 21-26)
expressed through the stage
functions `stage4Res` .. `finalSpec` above.  Returns the result (or the escaping
exception) together with the list of gateway calls actually issued. -/
def fix_row (o : Oracle) (row : Row) : Except PyErr FixResult × List GatewayCall :=
  -- `original_spec_pred = "" if pd.isna(raw_spec_pred) else str(raw_spec_pred)`
  let original_spec_pred : Str := row.spec_pred.getD []
  -- stage 1 (predict_item): only `asyncio.TimeoutError` is caught, so a
  -- non-timeout gateway failure escapes `fix_row` here.
  match o.predictItem with
  | .exn => (.error .gatewayError, [.predictItem])
  | _ =>
    let item_pred : Option Str := predictVal o
    -- category correction is disabled: pass-through.
    let category_fixed : Option Str := row.category
    let category_changed := false
    -- stage 2 (build spec query, no I/O); the query text only selects the
    -- retrieval question and does not affect this model's oracle.
    let _spec_query : Str :=
      trimS (intercalateC ' '
        ((match category_fixed with
          | some c => if c ≠ [] then [c] else []
          | none => []) ++
         (match item_pred with
          | some i => if i ≠ [] then [i] else []
          | none => [])))
    -- stage 3 (retrieval + sort/render); `_retrieve` never raises.
    let patterns := extract_spec_patterns o.ragRecords
    match sortRenderPatterns patterns with
    | .error e => (.error e, [.predictItem, .ragRetrieve])
    | .ok _spec_patterns_text =>
      -- stages 4-7 (fix_spec, remove_multi_items, validate_spec, align):
      -- see `stage4Res` .. `finalSpec` / `stageLog` below.
      let final_spec : Str := finalSpec o original_spec_pred
      -- change detection
      let norm_orig := normalize_for_compare (some original_spec_pred)
      let norm_fixed := normalize_for_compare (some final_spec)
      let spec_changed := norm_fixed ≠ [] ∧ norm_fixed ≠ norm_orig
      -- stage 8 (extract item from the final spec, when truthy)
      let item_extracted : Option Str :=
        if final_spec ≠ [] then extract_item (some final_spec) else none
      (.ok
        { item_pred := item_pred
          item_extracted := item_extracted
          spec_pred_fixed := some final_spec
          category_fixed := category_fixed
          spec_changed := decide spec_changed
          category_changed := category_changed },
       [.predictItem, .ragRetrieve] ++ stageLog o original_spec_pred)

/-! ## Batch boundary (`app/pipeline/pipeline.py`,
`app/fastapi/api/routers/pipeline.py`) -/

/-- Model of `fallback_result` (pipeline.py lines 15-23, routers/pipeline.py lines
13-21): the substitute produced when a row's pipeline raises. -/
def fallback_result (row : Row) : FixResult :=
  { item_pred := none
    item_extracted := none
    spec_pred_fixed := row.spec_pred
    category_fixed := row.category
    spec_changed := false
    category_changed := false }

/-- The per-row `worker` body: the row's own result, or the fallback when
its pipeline raised. -/
def rowOutcome (o : Oracle) (row : Row) : FixResult :=
  match (fix_row o row).1 with
  | .ok r => r
  | .error _ => fallback_result row

/-- The `for i, r in enumerate(rows)` task list, starting at index `i`. -/
def fix_batch_from (oracles : Nat → Oracle) (i : Nat) : List Row → List FixResult
  | [] => []
  | row :: rest => rowOutcome (oracles i) row :: fix_batch_from oracles (i + 1) rest

/-- Model of `fix_batch` (routers/pipeline.py lines 43-59) / `process_dataframe`
(pipeline.py lines 26-70): every row is processed and its result stored at
the row's submission index. -/
def fix_batch (oracles : Nat → Oracle) (rows : List Row) : List FixResult :=
  fix_batch_from oracles 0 rows

/-- The value worker `i` writes into its slot. -/
def slotValue (rows : List Row) (oracles : Nat → Oracle) (i : Nat) :
    Option FixResult :=
  (rows[i]?).map (rowOutcome (oracles i))

/-- The completion-order semantics of the scheduler: a pre-sized slot
array `results = [None] * len(rows)` receives each worker's result at the
worker's submission index, in an arbitrary completion order. -/
def writeSlots (rows : List Row) (oracles : Nat → Oracle) (order : List Nat) :
    List (Option FixResult) :=
  order.foldl
    (fun results i => results.set i (slotValue rows oracles i))
    (List.replicate rows.length none)

/-! ## Character-level lemmas -/

theorem char_toNat_inj {c d : Char} (h : c.toNat = d.toNat) : c = d := by
  have hc := Char.ofNat_toNat c
  have hd := Char.ofNat_toNat d
  rw [← hc, ← hd, h]

theorem toNat_ofNat_valid (n : Nat) (h : n.isValidChar) :
    (Char.ofNat n).toNat = n := by
  rw [Char.ofNat, dif_pos h]
  rfl

theorem lowerChar_toNat (c : Char) :
    (lowerChar c).toNat =
      if 65 ≤ c.toNat ∧ c.toNat ≤ 90 then c.toNat + 32 else c.toNat := by
  unfold lowerChar
  split
  · next h => exact toNat_ofNat_valid _ (Or.inl (by omega))
  · rfl

theorem lowerChar_of_not_upper {c : Char} (h : ¬(65 ≤ c.toNat ∧ c.toNat ≤ 90)) :
    lowerChar c = c := by
  unfold lowerChar
  rw [if_neg h]

theorem lowerChar_idem (c : Char) : lowerChar (lowerChar c) = lowerChar c := by
  apply lowerChar_of_not_upper
  rw [lowerChar_toNat]
  split <;> omega

theorem lowerStr_idem (s : Str) : lowerStr (lowerStr s) = lowerStr s := by
  unfold lowerStr
  rw [List.map_map]
  exact List.map_congr_left (fun c _ => lowerChar_idem c)

/-- A character whose code is not a lowercase letter is produced by
`lowerChar` only from itself. -/
theorem eq_of_lowerChar_eq {c t : Char} (ht : ¬(97 ≤ t.toNat ∧ t.toNat ≤ 122))
    (h : lowerChar c = t) : c = t := by
  by_cases hu : 65 ≤ c.toNat ∧ c.toNat ≤ 90
  · exfalso
    apply ht
    have h32 : t.toNat = c.toNat + 32 := by
      rw [← h, lowerChar_toNat, if_pos hu]
    omega
  · rwa [lowerChar_of_not_upper hu] at h

theorem isWS_lowerChar (c : Char) : isWS (lowerChar c) = isWS c := by
  by_cases hu : 65 ≤ c.toNat ∧ c.toNat ≤ 90
  · have hln : (lowerChar c).toNat = c.toNat + 32 := by
      rw [lowerChar_toNat, if_pos hu]
    have hsp : (' ' : Char).toNat = 32 := rfl
    have hta : ('\t' : Char).toNat = 9 := rfl
    have hnl : ('\n' : Char).toNat = 10 := rfl
    have hcr : ('\r' : Char).toNat = 13 := rfl
    unfold isWS
    have h1 : (lowerChar c ≠ ' ') ∧ (lowerChar c ≠ '\t') ∧
        (lowerChar c ≠ '\n') ∧ (lowerChar c ≠ '\r') := by
      refine ⟨?_, ?_, ?_, ?_⟩ <;>
        (intro h; have hcn := congrArg Char.toNat h; rw [hln] at hcn; omega)
    have h2 : (c ≠ ' ') ∧ (c ≠ '\t') ∧ (c ≠ '\n') ∧ (c ≠ '\r') := by
      refine ⟨?_, ?_, ?_, ?_⟩ <;>
        (intro h; have hcn := congrArg Char.toNat h; omega)
    simp [h1.1, h1.2.1, h1.2.2.1, h1.2.2.2, h2.1, h2.2.1, h2.2.2.1, h2.2.2.2]
  · rw [lowerChar_of_not_upper hu]

theorem lowerChar_space : lowerChar ' ' = ' ' := by decide

theorem mem_lowerStr_of_space {s : Str} (h : ' ' ∈ s) : ' ' ∈ lowerStr s := by
  unfold lowerStr
  rw [← lowerChar_space]
  exact List.mem_map_of_mem lowerChar h

/-! ## Trim lemmas -/

theorem trimR_prefix (t : Str) : trimR t <+: t := by
  unfold trimR
  have h : t.reverse.dropWhile isWS <:+ t.reverse := List.dropWhile_suffix isWS
  rw [← List.reverse_reverse t]
  exact (List.reverse_prefix).mpr (by simpa using h)

theorem trimR_getLast?_not_ws {t : Str} {x : Char}
    (h : (trimR t).getLast? = some x) : isWS x = false := by
  unfold trimR at h
  rw [List.getLast?_reverse] at h
  have := List.head?_dropWhile_not isWS t.reverse
  rw [h] at this
  exact this

theorem trimL_head?_not_ws {t : Str} {x : Char}
    (h : (trimL t).head? = some x) : isWS x = false := by
  unfold trimL at h
  have := List.head?_dropWhile_not isWS t
  rw [h] at this
  exact this

theorem trimS_head?_not_ws {s : Str} {x : Char} (h : (trimS s).head? = some x) :
    isWS x = false := by
  unfold trimS at h
  obtain ⟨r, hr⟩ := trimR_prefix (trimL s)
  apply @trimL_head?_not_ws s
  rw [← hr, List.head?_append, h]
  rfl

theorem trimS_getLast?_not_ws {s : Str} {x : Char}
    (h : (trimS s).getLast? = some x) : isWS x = false :=
  trimR_getLast?_not_ws h

theorem trimL_eq_self {s : Str} (h : ∀ x, s.head? = some x → isWS x = false) :
    trimL s = s := by
  unfold trimL
  cases s with
  | nil => rfl
  | cons a l =>
    have := h a rfl
    rw [List.dropWhile_cons_of_neg (by simp [this])]

theorem trimR_eq_self {s : Str} (h : ∀ x, s.getLast? = some x → isWS x = false) :
    trimR s = s := by
  unfold trimR
  have hh : ∀ x, s.reverse.head? = some x → isWS x = false := by
    intro x hx
    rw [List.head?_reverse] at hx
    exact h x hx
  have : s.reverse.dropWhile isWS = s.reverse := by
    cases hrev : s.reverse with
    | nil => rfl
    | cons a l =>
      have := hh a (by rw [hrev]; rfl)
      rw [List.dropWhile_cons_of_neg (by simp [this])]
  rw [this, List.reverse_reverse]

theorem trimS_eq_self {s : Str}
    (h1 : ∀ x, s.head? = some x → isWS x = false)
    (h2 : ∀ x, s.getLast? = some x → isWS x = false) :
    trimS s = s := by
  unfold trimS
  rw [trimL_eq_self h1, trimR_eq_self h2]

theorem trimS_subset (s : Str) : trimS s ⊆ s := by
  intro a ha
  obtain ⟨r, hr⟩ := trimR_prefix (trimL s)
  have : a ∈ trimL s := by rw [← hr]; exact List.mem_append_left _ ha
  exact List.dropWhile_subset isWS this

/-! ## Split / join lemmas -/

theorem splitOnC_ne_nil (c : Char) (s : Str) : splitOnC c s ≠ [] := by
  cases s with
  | nil => simp [splitOnC]
  | cons x xs =>
    unfold splitOnC
    split
    · simp
    · cases h : splitOnC c xs <;> simp

theorem splitOnC_cons_pos (c : Char) (xs : Str) :
    splitOnC c (c :: xs) = [] :: splitOnC c xs := by
  conv_lhs => unfold splitOnC
  rw [if_pos rfl]

theorem splitOnC_cons_neg {c x : Char} {xs : Str} (hx : ¬x = c)
    {y : Str} {ys : List Str} (hs : splitOnC c xs = y :: ys) :
    splitOnC c (x :: xs) = (x :: y) :: ys := by
  conv_lhs => unfold splitOnC
  rw [if_neg hx, hs]

theorem not_mem_of_mem_splitOnC {c : Char} {s q : Str}
    (h : q ∈ splitOnC c s) : c ∉ q := by
  induction s generalizing q with
  | nil =>
    simp only [splitOnC, List.mem_singleton] at h
    subst h
    simp
  | cons x xs ih =>
    unfold splitOnC at h
    by_cases hx : x = c
    · rw [if_pos hx] at h
      rcases List.mem_cons.mp h with h1 | h1
      · subst h1; simp
      · exact ih h1
    · rw [if_neg hx] at h
      obtain ⟨y, ys, hs⟩ : ∃ y ys, splitOnC c xs = y :: ys := by
        cases hsp : splitOnC c xs with
        | nil => exact absurd hsp (splitOnC_ne_nil c xs)
        | cons y ys => exact ⟨y, ys, rfl⟩
      rw [hs] at h
      rcases List.mem_cons.mp h with h1 | h1
      · subst h1
        have hy : c ∉ y :=
          ih (show y ∈ splitOnC c xs by rw [hs]; exact List.mem_cons_self _ _)
        simp only [List.mem_cons]
        rintro (rfl | hcy)
        · exact hx rfl
        · exact hy hcy
      · exact ih (by rw [hs]; exact List.mem_cons_of_mem _ h1)

theorem splitOnC_of_not_mem {c : Char} {s : Str} (h : c ∉ s) :
    splitOnC c s = [s] := by
  induction s with
  | nil => rfl
  | cons x xs ih =>
    unfold splitOnC
    have hx : ¬(x = c) := by
      intro hxc
      exact h (by rw [hxc]; exact List.mem_cons_self _ _)
    rw [if_neg hx, ih (fun hc => h (List.mem_cons_of_mem _ hc))]

theorem splitOnC_append_cons {c : Char} {p r : Str} (h : c ∉ p) :
    splitOnC c (p ++ c :: r) = p :: splitOnC c r := by
  induction p with
  | nil => simp [splitOnC]
  | cons x xs ih =>
    have hx : ¬(x = c) := by
      intro hxc
      exact h (by rw [hxc]; exact List.mem_cons_self _ _)
    have ih' := ih (fun hc => h (List.mem_cons_of_mem _ hc))
    simp only [List.cons_append]
    exact splitOnC_cons_neg hx ih'

theorem splitOnC_intercalateC {c : Char} {ps : List Str} (hne : ps ≠ [])
    (h : ∀ p ∈ ps, c ∉ p) :
    splitOnC c (intercalateC c ps) = ps := by
  induction ps with
  | nil => exact absurd rfl hne
  | cons p rest ih =>
    cases rest with
    | nil =>
      exact splitOnC_of_not_mem (h p (List.mem_cons_self _ _))
    | cons q qs =>
      have hp : c ∉ p := h p (List.mem_cons_self _ _)
      show splitOnC c (p ++ c :: intercalateC c (q :: qs)) = _
      rw [splitOnC_append_cons hp,
        ih (by simp) (fun x hx => h x (List.mem_cons_of_mem _ hx))]

theorem splitFirst_of_not_mem {c : Char} {s : Str} (h : c ∉ s) :
    splitFirst c s = none := by
  induction s with
  | nil => rfl
  | cons x xs ih =>
    unfold splitFirst
    have hx : ¬(x = c) := by
      intro hxc
      exact h (by rw [hxc]; exact List.mem_cons_self _ _)
    rw [if_neg hx, ih (fun hc => h (List.mem_cons_of_mem _ hc))]
    rfl

theorem splitFirst_append_cons {c : Char} {a b : Str} (h : c ∉ a) :
    splitFirst c (a ++ c :: b) = some (a, b) := by
  induction a with
  | nil => simp [splitFirst]
  | cons x xs ih =>
    have hx : ¬(x = c) := by
      intro hxc
      exact h (by rw [hxc]; exact List.mem_cons_self _ _)
    have ih' := ih (fun hc => h (List.mem_cons_of_mem _ hc))
    simp only [List.cons_append]
    unfold splitFirst
    rw [if_neg hx, ih']
    rfl

theorem splitFirst_eq_some {c : Char} {s k v : Str}
    (h : splitFirst c s = some (k, v)) : s = k ++ c :: v ∧ c ∉ k := by
  induction s generalizing k v with
  | nil => simp [splitFirst] at h
  | cons x xs ih =>
    unfold splitFirst at h
    split at h
    · next hx =>
      subst hx
      simp only [Option.some.injEq, Prod.mk.injEq] at h
      obtain ⟨hk, hv⟩ := h
      subst hk; subst hv
      simp
    · next hx =>
      cases hs : splitFirst c xs with
      | none => rw [hs] at h; simp at h
      | some p =>
        rw [hs] at h
        simp only [Option.map_some', Option.some.injEq] at h
        obtain ⟨k', v'⟩ := p
        simp only [Prod.mk.injEq] at h
        obtain ⟨hk, hv⟩ := h
        obtain ⟨hs', hnk⟩ := ih hs
        subst hk; subst hv; subst hs'
        refine ⟨rfl, ?_⟩
        simp only [List.mem_cons]
        rintro (rfl | hck)
        · exact hx rfl
        · exact hnk hck

/-! ## head / last of rendered pair lists -/

theorem intercalateC_head? {c : Char} {x : Str} {xs : List Str} (hx : x ≠ []) :
    (intercalateC c (x :: xs)).head? = x.head? := by
  cases xs with
  | nil => rfl
  | cons y ys =>
    show (x ++ c :: intercalateC c (y :: ys)).head? = x.head?
    rw [List.head?_append]
    cases hh : x.head? with
    | none => exact absurd (List.head?_eq_none_iff.mp hh) hx
    | some a => rfl

theorem intercalateC_ne_nil {c : Char} {ps : List Str} (hne : ps ≠ [])
    (h : ∀ p ∈ ps, p ≠ []) : intercalateC c ps ≠ [] := by
  cases ps with
  | nil => exact absurd rfl hne
  | cons p rest =>
    cases rest with
    | nil => exact h p (List.mem_cons_self _ _)
    | cons q qs =>
      show p ++ c :: intercalateC c (q :: qs) ≠ []
      simp

theorem getLast?_cons_of_ne_nil {a : Char} {t : Str} (ht : t ≠ []) :
    (a :: t).getLast? = t.getLast? := by
  cases t with
  | nil => exact absurd rfl ht
  | cons u us => exact List.getLast?_cons_cons

theorem intercalateC_getLast? {c : Char} {ps : List Str} {q : Str}
    (h : ∀ p ∈ ps, p ≠ []) (hlast : ps.getLast? = some q) :
    (intercalateC c ps).getLast? = q.getLast? := by
  induction ps with
  | nil => simp at hlast
  | cons p rest ih =>
    cases rest with
    | nil =>
      have : p = q := by simpa using hlast
      subst this
      rfl
    | cons r rs =>
      have hstep : (p :: r :: rs).getLast? = (r :: rs).getLast? :=
        List.getLast?_cons_cons
      have hrest : (r :: rs).getLast? = some q := by
        rw [← hstep]
        exact hlast
      have ih' := ih (fun x hx => h x (List.mem_cons_of_mem _ hx)) hrest
      show (p ++ c :: intercalateC c (r :: rs)).getLast? = _
      have htne : intercalateC c (r :: rs) ≠ [] :=
        intercalateC_ne_nil (by simp) (fun x hx => h x (List.mem_cons_of_mem _ hx))
      rw [List.getLast?_append, getLast?_cons_of_ne_nil htne, ih']
      have hqne : q ≠ [] :=
        h q (List.mem_cons_of_mem _ (List.mem_of_getLast?_eq_some hrest))
      cases hg : q.getLast? with
      | none => exact absurd (List.getLast?_eq_none_iff.mp hg) hqne
      | some a => rfl

/-! ## Dict lemmas (Python `dict` semantics on ordered association lists) -/

theorem any_key_iff (l : List (Str × Str)) (k : Str) :
    l.any (fun kv => kv.1 = k) = true ↔ k ∈ keys l := by
  rw [List.any_eq_true]
  constructor
  · rintro ⟨kv, hkv, hp⟩
    have hk : kv.1 = k := by simpa using hp
    exact hk ▸ List.mem_map_of_mem Prod.fst hkv
  · intro h
    rcases List.mem_map.mp h with ⟨kv, hkv, hk⟩
    exact ⟨kv, hkv, by simp [hk]⟩

theorem dictGet_nil (k : Str) : dictGet [] k = none := rfl

theorem dictGet_cons {x : Str × Str} {xs : List (Str × Str)} {k : Str} :
    dictGet (x :: xs) k = if x.1 = k then some x.2 else dictGet xs k := by
  by_cases hx : x.1 = k
  · rw [if_pos hx]
    unfold dictGet
    rw [List.find?_cons_of_pos _ (by simp [hx])]
    rfl
  · rw [if_neg hx]
    unfold dictGet
    rw [List.find?_cons_of_neg _ (by simp [hx])]

theorem keys_insertOrUpdate (l : List (Str × Str)) (k v : Str) :
    keys (insertOrUpdate l k v) =
      if k ∈ keys l then keys l else keys l ++ [k] := by
  unfold insertOrUpdate
  by_cases h : k ∈ keys l
  · rw [if_pos ((any_key_iff l k).mpr h), if_pos h]
    unfold keys
    rw [List.map_map]
    apply List.map_congr_left
    intro kv _
    by_cases hkv : kv.1 = k
    · simp [hkv]
    · simp [hkv]
  · rw [if_neg (fun ha => h ((any_key_iff l k).mp ha)), if_neg h]
    unfold keys
    rw [List.map_append]
    rfl

theorem dictGet_map_update (xs : List (Str × Str)) (k v k' : Str) :
    dictGet (xs.map (fun kv => if kv.1 = k then (k, v) else kv)) k' =
      if k' = k then
        (if xs.any (fun kv => kv.1 = k) = true then some v else none)
      else dictGet xs k' := by
  induction xs with
  | nil =>
    by_cases hk : k' = k
    · simp [dictGet_nil, hk]
    · simp [dictGet_nil, hk]
  | cons x l ih =>
    rw [List.map_cons, dictGet_cons, dictGet_cons]
    have hany : ((x :: l).any (fun kv => kv.1 = k)) =
        ((decide (x.1 = k)) || l.any (fun kv => kv.1 = k)) := by
      simp [List.any_cons]
    by_cases hx : x.1 = k
    · rw [if_pos hx]
      by_cases hk : k' = k
      · have hhead : ((k, v) : Str × Str).1 = k' := by simp [hk]
        rw [if_pos hhead, if_pos hk, hany, if_pos (by simp [hx])]
      · have hhead : ¬((k, v) : Str × Str).1 = k' := by
          simp only []
          exact fun h' => hk h'.symm
        rw [if_neg hhead, if_neg hk, ih, if_neg hk,
          if_neg (show ¬x.1 = k' from fun h' => hk (hx ▸ h').symm)]
    · rw [if_neg hx]
      by_cases hxk : x.1 = k'
      · have hk : ¬k' = k := fun h' => hx (h' ▸ hxk)
        rw [if_pos hxk, if_pos hxk, if_neg hk]
      · rw [if_neg hxk, if_neg hxk, ih, hany]
        have hdec : (decide (x.1 = k) || l.any fun kv => decide (kv.1 = k)) =
            (l.any fun kv => decide (kv.1 = k)) := by
          simp [hx]
        rw [hdec]

theorem dictGet_append_single (l : List (Str × Str)) (k v k' : Str) :
    dictGet (l ++ [(k, v)]) k' =
      ((dictGet l k').or (if k = k' then some v else none)) := by
  unfold dictGet
  rw [List.find?_append]
  cases hfind : l.find? (fun kv => kv.1 = k') with
  | some kv => rfl
  | none =>
    by_cases hk : k = k'
    · rw [if_pos hk]
      have : List.find? (fun kv => kv.1 = k') [(k, v)] = some (k, v) := by
        rw [List.find?_cons_of_pos _ (by simp [hk])]
      rw [this]
      rfl
    · rw [if_neg hk]
      have : List.find? (fun kv => kv.1 = k') [(k, v)] = none := by
        rw [List.find?_cons_of_neg _ (by simp [hk])]
        rfl
      rw [this]
      rfl

theorem dictGet_insertOrUpdate (l : List (Str × Str)) (k v k' : Str) :
    dictGet (insertOrUpdate l k v) k' =
      if k' = k then some v else dictGet l k' := by
  unfold insertOrUpdate
  by_cases h : l.any (fun kv => kv.1 = k) = true
  · rw [if_pos h, dictGet_map_update, h]
    by_cases hk : k' = k
    · rw [if_pos hk, if_pos hk]
      rfl
    · rw [if_neg hk, if_neg hk]
  · rw [if_neg h, dictGet_append_single]
    by_cases hk : k' = k
    · subst hk
      have hnone : dictGet l k' = none := by
        unfold dictGet
        rw [List.find?_eq_none.mpr]
        · rfl
        · intro kv hkv hp
          exact h (List.any_eq_true.mpr ⟨kv, hkv, hp⟩)
      rw [hnone]
      simp
    · rw [if_neg (fun h' => hk h'.symm), if_neg hk]
      cases hget : dictGet l k' <;> rfl

theorem mem_insertOrUpdate {l : List (Str × Str)} {k v : Str} {kv' : Str × Str}
    (h : kv' ∈ insertOrUpdate l k v) : kv' ∈ l ∨ kv' = (k, v) := by
  unfold insertOrUpdate at h
  split at h
  · rcases List.mem_map.mp h with ⟨kv, hkv, hf⟩
    by_cases hk : kv.1 = k
    · rw [if_pos hk] at hf
      exact Or.inr hf.symm
    · rw [if_neg hk] at hf
      exact Or.inl (hf ▸ hkv)
  · rcases List.mem_append.mp h with h1 | h1
    · exact Or.inl h1
    · exact Or.inr (List.mem_singleton.mp h1)

/-! ## Fold lemmas: Python's dict-building loop -/

theorem foldl_parseStep_eq (l : List Str) (acc : List (Str × Str)) :
    l.foldl parseStep acc = (l.filterMap segPair).foldl dinsert acc := by
  induction l generalizing acc with
  | nil => rfl
  | cons p ps ih =>
    rw [List.foldl_cons, List.filterMap_cons]
    cases hp : segPair p with
    | none => rw [ih]; unfold parseStep; rw [hp]
    | some kv =>
      rw [List.foldl_cons, ih]
      unfold parseStep
      rw [hp]

theorem mem_foldl_dinsert {l : List (Str × Str)} {acc : List (Str × Str)}
    {kv' : Str × Str} (h : kv' ∈ l.foldl dinsert acc) : kv' ∈ acc ∨ kv' ∈ l := by
  induction l generalizing acc with
  | nil => exact Or.inl h
  | cons kv ps ih =>
    rw [List.foldl_cons] at h
    rcases ih h with h1 | h1
    · rcases mem_insertOrUpdate h1 with h2 | h2
      · exact Or.inl h2
      · exact Or.inr (by rw [h2]; exact List.mem_cons_self _ _)
    · exact Or.inr (List.mem_cons_of_mem _ h1)

theorem firstDedup_congr {s₁ s₂ : List Str} (h : ∀ x, x ∈ s₁ ↔ x ∈ s₂) :
    ∀ l, firstDedup s₁ l = firstDedup s₂ l := by
  intro l
  induction l generalizing s₁ s₂ with
  | nil => rfl
  | cons k ks ih =>
    unfold firstDedup
    by_cases hk : k ∈ s₁
    · rw [if_pos hk, if_pos ((h k).mp hk)]
      exact ih h
    · rw [if_neg hk, if_neg (fun h2 => hk ((h k).mpr h2))]
      rw [@ih (k :: s₁) (k :: s₂) (by intro x; simp [h x])]

theorem keys_foldl_dinsert (l : List (Str × Str)) (acc : List (Str × Str)) :
    keys (l.foldl dinsert acc) = keys acc ++ firstDedup (keys acc) (l.map Prod.fst) := by
  induction l generalizing acc with
  | nil => simp [firstDedup]
  | cons kv ps ih =>
    rw [List.foldl_cons, List.map_cons]
    unfold firstDedup
    by_cases hk : kv.1 ∈ keys acc
    · rw [if_pos hk, ih]
      unfold dinsert
      rw [keys_insertOrUpdate, if_pos hk]
    · rw [if_neg hk, ih]
      unfold dinsert
      rw [keys_insertOrUpdate, if_neg hk, List.append_assoc]
      simp only [List.singleton_append]
      congr 1
      congr 1
      apply firstDedup_congr
      intro x
      simp [or_comm]

theorem nodup_keys_foldl_dinsert (l : List (Str × Str))
    (acc : List (Str × Str)) (h : (keys acc).Nodup) :
    (keys (l.foldl dinsert acc)).Nodup := by
  induction l generalizing acc with
  | nil => exact h
  | cons kv ps ih =>
    rw [List.foldl_cons]
    apply ih
    unfold dinsert
    rw [keys_insertOrUpdate]
    by_cases hk : kv.1 ∈ keys acc
    · rw [if_pos hk]; exact h
    · rw [if_neg hk]
      rw [List.nodup_append]
      exact ⟨h, List.nodup_singleton _, by
        intro a ha hb
        rw [List.mem_singleton] at hb
        subst hb
        exact hk ha⟩

theorem dictGet_foldl_dinsert (l : List (Str × Str)) (acc : List (Str × Str))
    (k : Str) :
    dictGet (l.foldl dinsert acc) k =
      l.foldl (fun r kv => if kv.1 = k then some kv.2 else r) (dictGet acc k) := by
  induction l generalizing acc with
  | nil => rfl
  | cons kv ps ih =>
    rw [List.foldl_cons, List.foldl_cons, ih]
    unfold dinsert
    rw [dictGet_insertOrUpdate]
    by_cases hk : kv.1 = k
    · rw [if_pos hk, if_pos (by rw [hk])]
    · rw [if_neg hk, if_neg (fun h => hk h.symm)]

theorem foldl_dinsert_of_nodup (l : List (Str × Str)) (acc : List (Str × Str))
    (h : (keys (acc ++ l)).Nodup) : l.foldl dinsert acc = acc ++ l := by
  induction l generalizing acc with
  | nil => simp
  | cons kv ps ih =>
    rw [List.foldl_cons]
    have hmem : kv.1 ∉ keys acc := by
      intro hk
      unfold keys at h
      rw [List.map_append] at h
      rcases (List.nodup_append.mp h) with ⟨_, _, hdisj⟩
      exact hdisj hk (by simp)
    have hins : dinsert acc kv = acc ++ [kv] := by
      unfold dinsert insertOrUpdate
      rw [if_neg (fun ha => hmem ((any_key_iff acc kv.1).mp ha))]
    rw [hins, ih]
    · simp
    · rw [List.append_assoc]
      simpa using h

/-! ## Structural invariants of parsed pairs -/

theorem segPair_good {p k v : Str} (hp : '|' ∉ p)
    (h : segPair p = some (k, v)) : goodPair (k, v) := by
  unfold segPair at h
  by_cases ht : trimS p = []
  · rw [if_pos ht] at h
    simp at h
  · rw [if_neg ht] at h
    obtain ⟨heq, hks⟩ := splitFirst_eq_some h
    have hsub : trimS p ⊆ p := trimS_subset p
    have hknil : k ≠ [] := by
      intro hk
      subst hk
      have : (trimS p).head? = some ' ' := by rw [heq]; rfl
      have := trimS_head?_not_ws this
      simp [isWS] at this
    have hvnil : v ≠ [] := by
      intro hv
      subst hv
      have : (trimS p).getLast? = some ' ' := by
        rw [heq]
        exact List.getLast?_concat _
      have := trimS_getLast?_not_ws this
      simp [isWS] at this
    refine ⟨hknil, ?_, ?_, hvnil, ?_, ?_⟩
    · intro c hc
      constructor
      · intro hcs
        exact hks (hcs ▸ hc)
      · intro hcp
        apply hp
        apply hsub
        rw [heq]
        exact List.mem_append_left _ (hcp ▸ hc)
    · intro x hx
      apply @trimS_head?_not_ws p
      rw [heq, List.head?_append, ← hx]
      cases k with
      | nil => exact absurd rfl hknil
      | cons a l => rfl
    · intro hvp
      apply hp
      apply hsub
      rw [heq]
      exact List.mem_append_right _ (List.mem_cons_of_mem _ hvp)
    · intro x hx
      apply @trimS_getLast?_not_ws p
      rw [heq, List.getLast?_append, getLast?_cons_of_ne_nil hvnil, hx]
      rfl

theorem parse_spec_good {x : Option Str} {kv : Str × Str}
    (h : kv ∈ parse_spec x) : goodPair kv := by
  unfold parse_spec at h
  cases hc : cleanSpecPred x with
  | none => rw [hc] at h; simp at h
  | some t =>
    rw [hc] at h
    have h' : kv ∈ (splitOnC '|' t).foldl parseStep [] := h
    rw [foldl_parseStep_eq] at h'
    rcases mem_foldl_dinsert h' with h1 | h1
    · simp at h1
    · rcases List.mem_filterMap.mp h1 with ⟨p, hp, hseg⟩
      obtain ⟨k, v⟩ := kv
      exact segPair_good (not_mem_of_mem_splitOnC hp) hseg

theorem parseSpecS_good {s : Str} {kv : Str × Str}
    (h : kv ∈ parseSpecS s) : goodPair kv := by
  unfold parseSpecS at h
  exact parse_spec_good h

/-! ## Re-parsing a rendered pair list -/

theorem parseStep_render {k v : Str} (acc : List (Str × Str))
    (hkv : goodPair (k, v)) : parseStep acc (k ++ ' ' :: v) = dinsert acc (k, v) := by
  obtain ⟨hknil, hkc, hkh, hvnil, _, hvl⟩ := hkv
  have hdh : ∀ x, (k ++ ' ' :: v).head? = some x → isWS x = false := by
    intro x hx
    rw [List.head?_append] at hx
    cases hk : k.head? with
    | none => exact absurd (List.head?_eq_none_iff.mp hk) hknil
    | some a =>
      rw [hk] at hx
      have : a = x := by simpa using hx
      exact this ▸ hkh a hk
  have hdl : ∀ x, (k ++ ' ' :: v).getLast? = some x → isWS x = false := by
    intro x hx
    rw [List.getLast?_append, getLast?_cons_of_ne_nil hvnil] at hx
    cases hv : v.getLast? with
    | none => exact absurd (List.getLast?_eq_none_iff.mp hv) hvnil
    | some a =>
      rw [hv] at hx
      have : a = x := by simpa using hx
      exact this ▸ hvl a hv
  have htrim : trimS (k ++ ' ' :: v) = k ++ ' ' :: v := trimS_eq_self hdh hdl
  have hsp : ' ' ∉ k := fun hc => ((hkc ' ' hc).1) rfl
  unfold parseStep segPair
  rw [htrim, if_neg (by simp), splitFirst_append_cons hsp]

theorem chunk_ne_nil (k v : Str) : k ++ ' ' :: v ≠ [] := by
  simp

theorem pipe_not_mem_chunk {k v : Str} (h : goodPair (k, v)) :
    '|' ∉ k ++ ' ' :: v := by
  obtain ⟨_, hkc, _, _, hvp, _⟩ := h
  intro hc
  rcases List.mem_append.mp hc with h1 | h1
  · exact (hkc '|' h1).2 rfl
  · rcases List.mem_cons.mp h1 with h2 | h2
    · exact absurd h2.symm (by decide)
    · exact hvp h2

/-- Re-parsing a rendered list of good pairs runs the Python dict loop
over exactly those pairs. -/
theorem parseSpecS_renderPairs {l : List (Str × Str)} (hne : l ≠ [])
    (h : ∀ kv ∈ l, goodPair kv) :
    parseSpecS (renderPairs l) = l.foldl dinsert [] := by
  obtain ⟨kv₀, rest, rfl⟩ : ∃ kv₀ rest, l = kv₀ :: rest := by
    cases l with
    | nil => exact absurd rfl hne
    | cons a r => exact ⟨a, r, rfl⟩
  set chunks := (kv₀ :: rest).map (fun kv => kv.1 ++ ' ' :: kv.2) with hchunks
  have hchne : ∀ q ∈ chunks, q ≠ [] := by
    intro q hq
    rcases List.mem_map.mp hq with ⟨kv, hkv, rfl⟩
    exact chunk_ne_nil _ _
  have hchpipe : ∀ q ∈ chunks, '|' ∉ q := by
    intro q hq
    rcases List.mem_map.mp hq with ⟨kv, hkv, rfl⟩
    exact pipe_not_mem_chunk (h kv hkv)
  have hg₀ := h kv₀ (List.mem_cons_self _ _)
  set s := renderPairs (kv₀ :: rest) with hs
  have hsdef : s = intercalateC '|' chunks := rfl
  have hhead : s.head? = kv₀.1.head? := by
    rw [hsdef, hchunks, List.map_cons]
    rw [intercalateC_head? (chunk_ne_nil _ _)]
    rw [List.head?_append]
    cases hk : kv₀.1.head? with
    | none => exact absurd (List.head?_eq_none_iff.mp hk) hg₀.1
    | some a => rfl
  have hheadsome : ∃ a, s.head? = some a ∧ isWS a = false := by
    cases hk : kv₀.1.head? with
    | none => exact absurd (List.head?_eq_none_iff.mp hk) hg₀.1
    | some a => exact ⟨a, by rw [hhead, hk], hg₀.2.2.1 a hk⟩
  obtain ⟨a₀, ha₀, ha₀ws⟩ := hheadsome
  have hsne : s ≠ [] := by
    intro hcon
    rw [hcon] at ha₀
    simp at ha₀
  have hlastsome : ∃ b, s.getLast? = some b ∧ isWS b = false := by
    obtain ⟨qlast, hqlast⟩ : ∃ q, chunks.getLast? = some q := by
      cases hcl : chunks.getLast? with
      | none =>
        exfalso
        have : chunks = [] := List.getLast?_eq_none_iff.mp hcl
        rw [hchunks] at this
        simp at this
      | some q => exact ⟨q, rfl⟩
    have hqmem : qlast ∈ chunks := List.mem_of_getLast?_eq_some hqlast
    rcases List.mem_map.mp hqmem with ⟨kv, hkv, hkveq⟩
    have hgkv := h kv hkv
    have hql : qlast.getLast? = kv.2.getLast? := by
      rw [← hkveq, List.getLast?_append, getLast?_cons_of_ne_nil hgkv.2.2.2.1]
      cases hv : kv.2.getLast? with
      | none => exact absurd (List.getLast?_eq_none_iff.mp hv) hgkv.2.2.2.1
      | some b => rfl
    cases hv : kv.2.getLast? with
    | none => exact absurd (List.getLast?_eq_none_iff.mp hv) hgkv.2.2.2.1
    | some b =>
      refine ⟨b, ?_, hgkv.2.2.2.2.2 b hv⟩
      rw [hsdef, intercalateC_getLast? hchne hqlast, hql, hv]
  obtain ⟨b₀, hb₀, hb₀ws⟩ := hlastsome
  have htrim : trimS s = s := by
    apply trimS_eq_self
    · intro x hx
      rw [ha₀] at hx
      have : a₀ = x := by simpa using hx
      exact this ▸ ha₀ws
    · intro x hx
      rw [hb₀] at hx
      have : b₀ = x := by simpa using hx
      exact this ▸ hb₀ws
  have hspace : ' ' ∈ s := by
    have h1 : ' ' ∈ kv₀.1 ++ ' ' :: kv₀.2 :=
      List.mem_append_right _ (List.mem_cons_self _ _)
    rw [hsdef, hchunks, List.map_cons]
    cases rest with
    | nil => exact h1
    | cons r rs => exact List.mem_append_left _ h1
  have hnan : ¬(lowerStr s = "nan".toList) := by
    intro hcon
    have := mem_lowerStr_of_space hspace
    rw [hcon] at this
    simp at this
  have hclean : cleanSpecPred (some s) = some s := by
    show (if trimS s = [] ∨ lowerStr (trimS s) = "nan".toList
      then none else some (trimS s)) = some s
    rw [htrim, if_neg]
    push_neg
    exact ⟨hsne, hnan⟩
  have hparse : parseSpecS s = (splitOnC '|' s).foldl parseStep [] := by
    unfold parseSpecS parse_spec
    rw [hclean]
  rw [hparse, hsdef, splitOnC_intercalateC (by rw [hchunks]; simp) hchpipe,
    hchunks, List.foldl_map]
  apply List.foldl_ext
  intro acc kv hkv
  exact parseStep_render acc (h kv hkv)

/-- With distinct keys, re-parsing a rendered pair list gives back the
pairs themselves. -/
theorem parseSpecS_renderPairs_of_nodup {l : List (Str × Str)} (hne : l ≠ [])
    (h : ∀ kv ∈ l, goodPair kv) (hnodup : (keys l).Nodup) :
    parseSpecS (renderPairs l) = l := by
  rw [parseSpecS_renderPairs hne h]
  exact foldl_dinsert_of_nodup l [] (by simpa using hnodup)

theorem parse_spec_eq_foldl_seg (x : Option Str) :
    parse_spec x = (seg_pairs x).foldl dinsert [] := by
  unfold parse_spec seg_pairs
  cases hc : cleanSpecPred x with
  | none => rfl
  | some t => exact foldl_parseStep_eq _ _

/-! ## Claims -/

/-- C9: `extract_item` returns the value bound to `"item"` and is absent
exactly when the key is missing, its value is empty, or its value is the
placeholder `"-"` after trimming; in particular
`extract_item "item -|brand x"` is absent and
`extract_item "item ตู้เย็น|brand x"` is `"ตู้เย็น"`. -/
theorem C9_extract_item :
    (∀ s : Str,
      (extract_item (some s) = none ↔
        dictGet (parseSpecS s) "item".toList = none ∨
        (∃ v, dictGet (parseSpecS s) "item".toList = some v ∧
          (v = [] ∨ trimS v = "-".toList ∨ trimS v = []))) ∧
      (∀ v, extract_item (some s) = some v →
        dictGet (parseSpecS s) "item".toList = some v ∧
        v ≠ [] ∧ trimS v ≠ "-".toList ∧ trimS v ≠ [])) ∧
    extract_item (some "item -|brand x".toList) = none ∧
    extract_item (some "item ตู้เย็น|brand x".toList) = some "ตู้เย็น".toList := by
  refine ⟨?_, by decide, by decide⟩
  intro s
  cases hd : dictGet (parseSpecS s) "item".toList with
  | none =>
    have hx : extract_item (some s) = none := by
      unfold extract_item
      rw [show dictGet (parse_spec (some s)) "item".toList = none from hd]
    refine ⟨⟨fun _ => Or.inl rfl, fun _ => hx⟩, ?_⟩
    intro v hv
    rw [hx] at hv
    exact absurd hv (by simp)
  | some v =>
    by_cases hcond : v = [] ∨ trimS v = "-".toList ∨ trimS v = []
    · have hx : extract_item (some s) = none := by
        have h1 : extract_item (some s) =
            (if v = [] ∨ trimS v = "-".toList ∨ trimS v = [] then none
             else some v) := by
          unfold extract_item
          rw [show dictGet (parse_spec (some s)) "item".toList = some v from hd]
        rw [h1, if_pos hcond]
      refine ⟨⟨fun _ => Or.inr ⟨v, rfl, hcond⟩, fun _ => hx⟩, ?_⟩
      intro w hw
      rw [hx] at hw
      exact absurd hw (by simp)
    · have hx : extract_item (some s) = some v := by
        have h1 : extract_item (some s) =
            (if v = [] ∨ trimS v = "-".toList ∨ trimS v = [] then none
             else some v) := by
          unfold extract_item
          rw [show dictGet (parse_spec (some s)) "item".toList = some v from hd]
        rw [h1, if_neg hcond]
      push_neg at hcond
      refine ⟨⟨?_, ?_⟩, ?_⟩
      · intro hnone
        rw [hx] at hnone
        exact absurd hnone (by simp)
      · rintro (h1 | ⟨w, hw, hcases⟩)
        · exact absurd h1 (by simp)
        · have hvw : v = w := by simpa using hw
          subst hvw
          rcases hcases with h | h | h
          · exact absurd h hcond.1
          · exact absurd h hcond.2.1
          · exact absurd h hcond.2.2
      · intro w hw
        rw [hx] at hw
        have hvw : v = w := by simpa using hw
        subst hvw
        exact ⟨rfl, hcond.1, hcond.2.1, hcond.2.2⟩

theorem C9_extract_item_witness :
    dictGet (parseSpecS "item ab|x y".toList) "item".toList = some "ab".toList ∧
    "ab".toList ≠ [] :=
  ⟨((C9_extract_item.1 "item ab|x y".toList).2 "ab".toList (by decide)).1,
    by decide⟩

/-- C10: `parse_spec` yields a mapping with no duplicate keys; a repeated
key is bound to the value of its last segment while keeping the iteration
position of its first occurrence. -/
theorem C10_parse_spec_dict_semantics :
    ∀ x : Option Str,
      (keys (parse_spec x)).Nodup ∧
      keys (parse_spec x) = firstDedup [] ((seg_pairs x).map Prod.fst) ∧
      (∀ k : Str, dictGet (parse_spec x) k =
        (seg_pairs x).foldl (fun r kv => if kv.1 = k then some kv.2 else r) none) := by
  intro x
  rw [parse_spec_eq_foldl_seg]
  refine ⟨nodup_keys_foldl_dinsert _ [] (by simp [keys]), ?_, ?_⟩
  · rw [keys_foldl_dinsert]
    rfl
  · intro k
    rw [dictGet_foldl_dinsert]
    rfl

theorem nodup_keys_parse_spec (x : Option Str) : (keys (parse_spec x)).Nodup := by
  rw [parse_spec_eq_foldl_seg]
  exact nodup_keys_foldl_dinsert _ [] (by simp [keys])

theorem mem_of_dictGet {l : List (Str × Str)} {k v : Str}
    (h : dictGet l k = some v) : (k, v) ∈ l := by
  unfold dictGet at h
  cases hf : l.find? (fun kv => kv.1 = k) with
  | none =>
    rw [hf] at h
    simp at h
  | some kv =>
    rw [hf] at h
    have hm := List.mem_of_find?_eq_some hf
    have hp := List.find?_some hf
    have hk : kv.1 = k := by simpa using hp
    have hv : kv.2 = v := by simpa using h
    obtain ⟨a, b⟩ := kv
    simp only [] at hk hv
    subst hk
    subst hv
    exact hm

theorem keys_map_fst_eq (l : List (Str × Str)) (g : Str × Str → Str) :
    keys (l.map (fun kv => (kv.1, g kv))) = keys l := by
  unfold keys
  rw [List.map_map]
  rfl

/-- The unfolding of `align_spec_keys` as one conditional. -/
theorem align_spec_keys_eq (O C : Str) :
    align_spec_keys O C =
      (if parseSpecS O = [] then ([] : Str)
       else renderPairs ((parseSpecS O).map
         (fun kv => (kv.1, (dictGet (parseSpecS C) kv.1).getD "-".toList)))) := rfl

/-- Aligning against a non-empty schema `O` re-parses to exactly `O`'s
pairs, with each value replaced by `C`'s value when present and `"-"`
otherwise. -/
theorem align_parse_eq (O C : Str) (hne : parseSpecS O ≠ []) :
    parseSpecS (align_spec_keys O C) =
      (parseSpecS O).map
        (fun kv => (kv.1, (dictGet (parseSpecS C) kv.1).getD "-".toList)) := by
  rw [align_spec_keys_eq, if_neg hne]
  apply parseSpecS_renderPairs_of_nodup
  · rw [Ne, List.map_eq_nil_iff]
    exact hne
  · intro kv' hkv'
    rcases List.mem_map.mp hkv' with ⟨kv, hkv, rfl⟩
    have hg : goodPair kv := parseSpecS_good hkv
    cases hdg : dictGet (parseSpecS C) kv.1 with
    | none =>
      refine ⟨hg.1, hg.2.1, hg.2.2.1, by simp,
        show ('|' ∉ (['-'] : Str)) by decide, ?_⟩
      intro x hx
      have hx2 : List.getLast? ['-'] = some x := hx
      have hx' : x = '-' := by simpa using hx2.symm
      subst hx'
      decide
    | some v =>
      have hmem := mem_of_dictGet hdg
      have hgv : goodPair (kv.1, v) := parseSpecS_good hmem
      exact ⟨hg.1, hg.2.1, hg.2.2.1, hgv.2.2.2.1, hgv.2.2.2.2.1,
        hgv.2.2.2.2.2⟩
  · rw [keys_map_fst_eq]
    exact nodup_keys_parse_spec (some O)

/-- C2: for a non-empty original schema `O`, aligning any candidate `C`
parses back to exactly `O`'s keys in `O`'s order, each bound to `C`'s
value when present and to `"-"` otherwise (extra keys of `C` are gone);
for empty `O` the result is the empty string. -/
theorem C2_align_schema :
    ∀ O C : Str,
      (parseSpecS O = [] → align_spec_keys O C = []) ∧
      (parseSpecS O ≠ [] →
        parseSpecS (align_spec_keys O C) =
          (parseSpecS O).map
            (fun kv => (kv.1, (dictGet (parseSpecS C) kv.1).getD "-".toList)) ∧
        keys (parseSpecS (align_spec_keys O C)) = keys (parseSpecS O)) := by
  intro O C
  constructor
  · intro h
    rw [align_spec_keys_eq, if_pos h]
  · intro hne
    have hres := align_parse_eq O C hne
    exact ⟨hres, by rw [hres, keys_map_fst_eq]⟩

theorem C2_align_schema_witness :
    align_spec_keys "".toList "b q".toList = [] ∧
    parseSpecS (align_spec_keys "a x|b y".toList "b q|c r".toList) =
      [("a".toList, "-".toList), ("b".toList, "q".toList)] := by
  constructor
  · exact (C2_align_schema "".toList "b q".toList).1 (by decide)
  · have h := (C2_align_schema "a x|b y".toList "b q|c r".toList).2 (by decide)
    exact h.1.trans (by decide)

/-! ## Idempotence of `fix_spec_format` -/

theorem removeAll_of_not_mem {c : Char} {s : Str} (h : c ∉ s) :
    removeAll c s = s := by
  unfold removeAll
  rw [List.filter_eq_self]
  intro a ha
  simp only [ne_eq, decide_not, Bool.not_eq_eq_eq_not, Bool.not_true,
    decide_eq_false_iff_not]
  intro hac
  exact h (hac ▸ ha)

theorem mem_removeAll {c a : Char} {s : Str} (h : a ∈ removeAll c s) :
    a ∈ s ∧ a ≠ c := by
  unfold removeAll at h
  rcases List.mem_filter.mp h with ⟨h1, h2⟩
  refine ⟨h1, ?_⟩
  simpa using h2

theorem getLast?_removeAll {c y : Char} {s : Str}
    (h : s.getLast? = some y) (hy : y ≠ c) :
    (removeAll c s).getLast? = some y := by
  induction s with
  | nil => simp at h
  | cons a t ih =>
    cases t with
    | nil =>
      have hay : a = y := by simpa using h
      subst hay
      unfold removeAll
      rw [List.filter_cons_of_pos (by simpa using hy)]
      rfl
    | cons b u =>
      have hstep : (a :: b :: u).getLast? = (b :: u).getLast? :=
        List.getLast?_cons_cons
      have ht : (b :: u).getLast? = some y := by
        rw [← hstep]
        exact h
      have ihy := ih ht
      have hne : removeAll c (b :: u) ≠ [] := by
        intro hcon
        rw [hcon] at ihy
        simp at ihy
      show (List.filter (fun x => x ≠ c) (a :: b :: u)).getLast? = some y
      by_cases hac : a = c
      · rw [List.filter_cons_of_neg (by simp [hac])]
        exact ihy
      · rw [List.filter_cons_of_pos (by simpa using hac)]
        show (a :: removeAll c (b :: u)).getLast? = some y
        rw [getLast?_cons_of_ne_nil hne]
        exact ihy

theorem filterMap_eq_self_of {α : Type} {g : α → Option α} {l : List α}
    (h : ∀ a ∈ l, g a = some a) : l.filterMap g = l := by
  induction l with
  | nil => rfl
  | cons a t ih =>
    rw [List.filterMap_cons, h a (List.mem_cons_self _ _),
      ih (fun x hx => h x (List.mem_cons_of_mem _ hx))]

/-- The strip in `fix_spec_format` / `parse_spec` is the identity on a
rendered `key value` chunk of a good pair. -/
theorem trimS_chunk {k v : Str} (hkv : goodPair (k, v)) :
    trimS (k ++ ' ' :: v) = k ++ ' ' :: v := by
  obtain ⟨hknil, _, hkh, hvnil, _, hvl⟩ := hkv
  apply trimS_eq_self
  · intro x hx
    rw [List.head?_append] at hx
    cases hk : k.head? with
    | none => exact absurd (List.head?_eq_none_iff.mp hk) hknil
    | some a =>
      rw [hk] at hx
      have hax : a = x := by simpa using hx
      exact hax ▸ hkh a hk
  · intro x hx
    rw [List.getLast?_append, getLast?_cons_of_ne_nil hvnil] at hx
    cases hv : v.getLast? with
    | none => exact absurd (List.getLast?_eq_none_iff.mp hv) hvnil
    | some a =>
      rw [hv] at hx
      have hax : a = x := by simpa using hx
      exact hax ▸ hvl a hv

/-- The invariants of every pair produced by `fmtPair`: a good pair whose
key and value are additionally space-free and fixed points of
lower-casing. -/
def fmtGood (kv : Str × Str) : Prop :=
  goodPair kv ∧ (' ' ∉ kv.2) ∧
  lowerStr kv.1 = kv.1 ∧ lowerStr kv.2 = kv.2

theorem not_space_of_fmtGood {kv : Str × Str} (h : fmtGood kv) : ' ' ∉ kv.1 :=
  fun hc => (h.1.2.1 ' ' hc).1 rfl

theorem fmtPair_good {p : Str} {kv : Str × Str} (hp : '|' ∉ p)
    (h : fmtPair p = some kv) : fmtGood kv := by
  unfold fmtPair at h
  cases hsp : splitFirst ' ' (trimS p) with
  | none =>
    rw [hsp] at h
    simp at h
  | some kv₀ =>
    rw [hsp] at h
    obtain ⟨k₀, v₀⟩ := kv₀
    have hkv : kv = (lowerStr (removeAll ' ' k₀), lowerStr (removeAll ' ' v₀)) := by
      simpa using h.symm
    subst hkv
    obtain ⟨heq, hks⟩ := splitFirst_eq_some hsp
    have hsub : trimS p ⊆ p := trimS_subset p
    have hknil : k₀ ≠ [] := by
      intro hk
      subst hk
      have hh : (trimS p).head? = some ' ' := by rw [heq]; rfl
      have := trimS_head?_not_ws hh
      simp [isWS] at this
    have hvnil : v₀ ≠ [] := by
      intro hv
      subst hv
      have hl : (trimS p).getLast? = some ' ' := by
        rw [heq]
        exact List.getLast?_concat _
      have := trimS_getLast?_not_ws hl
      simp [isWS] at this
    have hrk : removeAll ' ' k₀ = k₀ := removeAll_of_not_mem hks
    -- last character of the value survives space removal
    obtain ⟨y, hy⟩ : ∃ y, v₀.getLast? = some y := by
      cases hv : v₀.getLast? with
      | none => exact absurd (List.getLast?_eq_none_iff.mp hv) hvnil
      | some y => exact ⟨y, rfl⟩
    have hyws : isWS y = false := by
      apply @trimS_getLast?_not_ws p
      rw [heq, List.getLast?_append, getLast?_cons_of_ne_nil hvnil, hy]
      rfl
    have hysp : y ≠ ' ' := by
      intro hcon
      rw [hcon] at hyws
      simp [isWS] at hyws
    have hvl : (removeAll ' ' v₀).getLast? = some y := getLast?_removeAll hy hysp
    have hvne : removeAll ' ' v₀ ≠ [] := by
      intro hcon
      rw [hcon] at hvl
      simp at hvl
    refine ⟨⟨?_, ?_, ?_, ?_, ?_, ?_⟩, ?_, ?_, ?_⟩
    · rw [hrk]
      intro hcon
      exact hknil (by simpa [lowerStr] using hcon)
    · intro c hc
      rcases List.mem_map.mp hc with ⟨c₀, hc₀, rfl⟩
      rw [hrk] at hc₀
      constructor
      · intro hcs
        have := eq_of_lowerChar_eq (by decide) hcs
        exact hks (this ▸ hc₀)
      · intro hcp
        have := eq_of_lowerChar_eq (by decide) hcp
        apply hp
        apply hsub
        rw [heq]
        exact List.mem_append_left _ (this ▸ hc₀)
    · intro x hx
      rw [hrk] at hx
      unfold lowerStr at hx
      rw [List.head?_map] at hx
      cases hk : k₀.head? with
      | none => exact absurd (List.head?_eq_none_iff.mp hk) hknil
      | some a =>
        rw [hk] at hx
        have hax : lowerChar a = x := by simpa using hx
        have haws : isWS a = false := by
          apply @trimS_head?_not_ws p
          rw [heq, List.head?_append, hk]
          rfl
        rw [← hax, isWS_lowerChar]
        exact haws
    · intro hcon
      exact hvne (by simpa [lowerStr] using hcon)
    · intro hc
      rcases List.mem_map.mp hc with ⟨c₀, hc₀, hlc⟩
      have := eq_of_lowerChar_eq (by decide) hlc
      subst this
      apply hp
      apply hsub
      rw [heq]
      exact List.mem_append_right _
        (List.mem_cons_of_mem _ (mem_removeAll hc₀).1)
    · intro x hx
      unfold lowerStr at hx
      rw [List.getLast?_map, hvl] at hx
      have : lowerChar y = x := by simpa using hx
      rw [← this, isWS_lowerChar]
      exact hyws
    · intro hc
      rcases List.mem_map.mp hc with ⟨c₀, hc₀, hlc⟩
      have := eq_of_lowerChar_eq (by decide) hlc
      subst this
      exact (mem_removeAll hc₀).2 rfl
    · exact lowerStr_idem _
    · exact lowerStr_idem _

/-- Re-formatting a rendered chunk of an `fmtGood` pair reproduces the
pair. -/
theorem fmtPair_render {kv : Str × Str} (h : fmtGood kv) :
    fmtPair (kv.1 ++ ' ' :: kv.2) = some kv := by
  obtain ⟨k, v⟩ := kv
  have hks : ' ' ∉ k := not_space_of_fmtGood h
  obtain ⟨hg, hvs, hlk, hlv⟩ := h
  unfold fmtPair
  rw [trimS_chunk hg, splitFirst_append_cons hks]
  simp only [Option.map_some']
  rw [removeAll_of_not_mem hks, removeAll_of_not_mem hvs, hlk, hlv]

/-- C8: the normalizing formatter is idempotent — applying
`fix_spec_format` twice gives the same string as applying it once. -/
theorem C8_fix_spec_format_idem :
    ∀ s : Str, fix_spec_format (fix_spec_format s) = fix_spec_format s := by
  intro s
  by_cases hs : s = []
  · subst hs
    rfl
  · have hfu : fix_spec_format s =
        renderPairs ((splitOnC '|' s).filterMap fmtPair) := by
      unfold fix_spec_format
      rw [if_neg hs]
    cases hq : (splitOnC '|' s).filterMap fmtPair with
    | nil =>
      rw [hfu, hq]
      rfl
    | cons kv₀ qrest =>
      set q := kv₀ :: qrest with hqdef
      have hqgood : ∀ kv ∈ q, fmtGood kv := by
        intro kv hkv
        rw [← hq] at hkv
        rcases List.mem_filterMap.mp hkv with ⟨p, hp, hfmt⟩
        exact fmtPair_good (not_mem_of_mem_splitOnC hp) hfmt
      have hr : fix_spec_format s = renderPairs q := by rw [hfu, hq]
      have hrne : renderPairs q ≠ [] := by
        unfold renderPairs
        apply intercalateC_ne_nil
        · simp [hqdef]
        · intro p hp
          rcases List.mem_map.mp hp with ⟨kv, _, rfl⟩
          simp
      have hchunks : splitOnC '|' (renderPairs q) =
          q.map (fun kv => kv.1 ++ ' ' :: kv.2) := by
        unfold renderPairs
        apply splitOnC_intercalateC
        · simp [hqdef]
        · intro p hp
          rcases List.mem_map.mp hp with ⟨kv, hkv, rfl⟩
          exact pipe_not_mem_chunk (hqgood kv hkv).1
      rw [hr]
      unfold fix_spec_format
      rw [if_neg hrne, hchunks, List.filterMap_map]
      congr 1
      apply filterMap_eq_self_of
      intro kv hkv
      exact fmtPair_render (hqgood kv hkv)

/-! ## Run lemmas for `fix_row` -/

theorem fix_row_predict_exn (o : Oracle) (row : Row)
    (h : o.predictItem = .exn) :
    fix_row o row = (.error .gatewayError, [.predictItem]) := by
  unfold fix_row
  rw [h]

theorem fix_row_crash (o : Oracle) (row : Row) {p : Str} {ps : List Str}
    (hpat : extract_spec_patterns o.ragRecords = p :: ps)
    (hne : o.predictItem ≠ .exn) :
    fix_row o row = (.error .attributeError, [.predictItem, .ragRetrieve]) := by
  cases ho : o.predictItem with
  | exn => exact absurd ho hne
  | ok v =>
    unfold fix_row
    rw [ho, hpat]
    rfl
  | timeout =>
    unfold fix_row
    rw [ho, hpat]
    rfl

theorem fix_row_run (o : Oracle) (row : Row)
    (hpat : extract_spec_patterns o.ragRecords = [])
    (hne : o.predictItem ≠ .exn) :
    fix_row o row =
      (.ok
        { item_pred := predictVal o
          item_extracted :=
            if finalSpec o (row.spec_pred.getD []) ≠ [] then
              extract_item (some (finalSpec o (row.spec_pred.getD [])))
            else none
          spec_pred_fixed := some (finalSpec o (row.spec_pred.getD []))
          category_fixed := row.category
          spec_changed :=
            decide (trimS (finalSpec o (row.spec_pred.getD [])) ≠ [] ∧
              trimS (finalSpec o (row.spec_pred.getD [])) ≠
                trimS (row.spec_pred.getD []))
          category_changed := false },
       [.predictItem, .ragRetrieve] ++ stageLog o (row.spec_pred.getD [])) := by
  cases ho : o.predictItem with
  | exn => exact absurd ho hne
  | ok v =>
    unfold fix_row predictVal stageLog finalSpec stage6Res stage5Spec
      stage5Res stage4Spec stage4Res
    rw [ho, hpat]
    rfl
  | timeout =>
    unfold fix_row predictVal stageLog finalSpec stage6Res stage5Spec
      stage5Res stage4Spec stage4Res
    rw [ho, hpat]
    rfl

theorem fix_row_run_fst (o : Oracle) (row : Row)
    (hpat : extract_spec_patterns o.ragRecords = [])
    (hne : o.predictItem ≠ .exn) (res : FixResult)
    (hok : (fix_row o row).1 = .ok res) :
    res =
      { item_pred := predictVal o
        item_extracted :=
          if finalSpec o (row.spec_pred.getD []) ≠ [] then
            extract_item (some (finalSpec o (row.spec_pred.getD [])))
          else none
        spec_pred_fixed := some (finalSpec o (row.spec_pred.getD []))
        category_fixed := row.category
        spec_changed :=
          decide (trimS (finalSpec o (row.spec_pred.getD [])) ≠ [] ∧
            trimS (finalSpec o (row.spec_pred.getD [])) ≠
              trimS (row.spec_pred.getD []))
        category_changed := false } := by
  rw [fix_row_run o row hpat hne] at hok
  exact (Except.ok.inj hok).symm

/-! ## Blank-input stage lemmas -/

theorem pyBlank_trimS {s : Str} (h : pyBlank s = true) : trimS s = [] := by
  unfold pyBlank at h
  rcases (Bool.or_eq_true _ _).mp h with h1 | h1
  · have : s = [] := by simpa using h1
    rw [this]
    rfl
  · simpa using h1

theorem parseSpecS_blank {s : Str} (h : pyBlank s = true) : parseSpecS s = [] := by
  have ht : trimS s = [] := pyBlank_trimS h
  have hc : cleanSpecPred (some s) = none := by
    show (if trimS s = [] ∨ lowerStr (trimS s) = "nan".toList
      then none else some (trimS s)) = none
    rw [if_pos (Or.inl ht)]
  unfold parseSpecS parse_spec
  rw [hc]

theorem align_blank {orig : Str} (w : Str) (h : pyBlank orig = true) :
    align_spec_keys orig w = [] := by
  rw [align_spec_keys_eq, if_pos (parseSpecS_blank h)]

theorem stage_blank (o : Oracle) {orig : Str} (h : pyBlank orig = true) :
    finalSpec o orig = [] ∧ stageLog o orig = [] := by
  have h4 : stage4Spec o orig = [] := by
    unfold stage4Spec stage4Res
    rw [if_pos h]
  have hb : pyBlank ([] : Str) = true := rfl
  have h5 : stage5Spec o orig = [] := by
    unfold stage5Spec stage5Res
    rw [h4, if_pos hb]
  have h6 : finalSpec o orig = [] := by
    unfold finalSpec stage6Res
    rw [h5, if_pos hb]
    show align_spec_keys orig (fix_spec_format []) = []
    exact align_blank _ h
  refine ⟨h6, ?_⟩
  unfold stageLog
  rw [h4, h5, if_pos h, if_pos hb, if_pos hb]
  rfl

/-- C5 (as stated) is false on the code: a non-timeout stage-1 gateway
failure is not treated like a timeout — it escapes `fix_row` instead of
continuing the pipeline with `item_pred` absent. -/
theorem C5_counterexample :
    fix_row
      { predictItem := .exn, ragRecords := [], fixSpec := .ok [],
        removeMulti := .ok [], validateSpec := .ok [] }
      { description := "d".toList, spec_pred := some "a x".toList,
        category := none } =
      (.error .gatewayError, [.predictItem]) := by
  rfl

/-- C5 amended: on a stage-1 timeout `item_pred` becomes absent and the
pipeline continues; any other stage-1 gateway failure propagates out of
`fix_row` as an uncaught exception, and the batch boundary converts it
into the fallback result. -/
theorem C5_stage1_error_policy :
    (∀ (o : Oracle) (row : Row), o.predictItem = .exn →
      (fix_row o row).1 = .error .gatewayError ∧
      rowOutcome o row = fallback_result row) ∧
    (∀ (o : Oracle) (row : Row) (res : FixResult),
      o.predictItem = .timeout → (fix_row o row).1 = .ok res →
      res.item_pred = none) := by
  constructor
  · intro o row h
    have hfr := fix_row_predict_exn o row h
    constructor
    · rw [hfr]
    · unfold rowOutcome
      rw [hfr]
  · intro o row res ht hok
    have hne : o.predictItem ≠ GWRes.exn := by
      rw [ht]
      intro hc
      exact GWRes.noConfusion hc
    cases hpat : extract_spec_patterns o.ragRecords with
    | nil =>
      have hres := fix_row_run_fst o row hpat hne res hok
      rw [hres]
      show predictVal o = none
      unfold predictVal
      rw [ht]
    | cons p ps =>
      rw [fix_row_crash o row hpat hne] at hok
      exact Except.noConfusion
        (show (Except.error PyErr.attributeError : Except PyErr FixResult) =
          Except.ok res from hok)

theorem C5_stage1_error_policy_witness :
    (fix_row
      { predictItem := .exn, ragRecords := [], fixSpec := .ok [],
        removeMulti := .ok [], validateSpec := .ok [] }
      { description := "d".toList, spec_pred := none, category := none }).1 =
        .error .gatewayError ∧
    rowOutcome
      { predictItem := .exn, ragRecords := [], fixSpec := .ok [],
        removeMulti := .ok [], validateSpec := .ok [] }
      { description := "d".toList, spec_pred := none, category := none } =
      fallback_result
        { description := "d".toList, spec_pred := none, category := none } :=
  C5_stage1_error_policy.1 _ _ rfl

/-- C6: what the code actually does in stage 3.
`_extract_spec_patterns` returns the bare spec strings (the similarity
scores never survive extraction), the sort-and-render step succeeds with
empty text on an empty retrieval, and on ANY non-empty retrieval the
`x.get("similarity", 0)` sort key raises `AttributeError` on a `str`, so
the whole row falls back — no similarity-sorted rendering ever happens. -/
theorem C6_retrieval_render_crash :
    extract_spec_patterns
      [{ spec := some "brand x".toList, specCap := none, metadata := none,
         content := [] }] =
      ["brand x".toList] ∧
    sortRenderPatterns [] = .ok [] ∧
    (∀ (p : Str) (ps : List Str),
      sortRenderPatterns (p :: ps) = .error .attributeError) ∧
    (fix_row
      { predictItem := .ok "i".toList,
        ragRecords := [{ spec := some "brand x".toList, specCap := none,
                         metadata := none, content := [] }],
        fixSpec := .ok [], removeMulti := .ok [], validateSpec := .ok [] }
      { description := "d".toList, spec_pred := some "a x".toList,
        category := none }) =
      (.error .attributeError, [.predictItem, .ragRetrieve]) := by
  exact ⟨rfl, rfl, fun p ps => rfl, rfl⟩

/-- C3: with a blank or absent `spec_pred`, stages 4-6 issue no
language-model gateway call, and every row whose pipeline completes
yields `spec_pred_fixed = ""` with `spec_changed = false`.  The final
conjuncts document the corner the stage-3 slip (see C6) introduces: with
a non-empty retrieval the row crashes before stages 4-6 (still no
stage-4-6 calls), and the batch fallback then carries the raw absent
`spec_pred` (`none`) instead of the empty string. -/
theorem C3_blank_spec_short_circuit :
    (∀ (o : Oracle) (row : Row),
      pyBlank (row.spec_pred.getD []) = true →
      GatewayCall.fixSpec ∉ (fix_row o row).2 ∧
      GatewayCall.removeMulti ∉ (fix_row o row).2 ∧
      GatewayCall.validateSpec ∉ (fix_row o row).2) ∧
    (∀ (o : Oracle) (row : Row) (res : FixResult),
      pyBlank (row.spec_pred.getD []) = true →
      (fix_row o row).1 = .ok res →
      res.spec_pred_fixed = some [] ∧ res.spec_changed = false) ∧
    (fix_row
        { predictItem := .ok "i".toList,
          ragRecords := [{ spec := some "brand x".toList, specCap := none,
                           metadata := none, content := [] }],
          fixSpec := .ok [], removeMulti := .ok [], validateSpec := .ok [] }
        { description := "d".toList, spec_pred := none, category := none }).1 =
      .error .attributeError ∧
    rowOutcome
        { predictItem := .ok "i".toList,
          ragRecords := [{ spec := some "brand x".toList, specCap := none,
                           metadata := none, content := [] }],
          fixSpec := .ok [], removeMulti := .ok [], validateSpec := .ok [] }
        { description := "d".toList, spec_pred := none, category := none } =
      fallback_result
        { description := "d".toList, spec_pred := none, category := none } ∧
    (fallback_result
        { description := "d".toList, spec_pred := none,
          category := none }).spec_pred_fixed = none := by
  refine ⟨?_, ?_, rfl, rfl, rfl⟩
  · intro o row h
    cases ho : o.predictItem with
    | exn =>
      rw [fix_row_predict_exn o row ho]
      exact ⟨by decide, by decide, by decide⟩
    | ok v =>
      have hne : o.predictItem ≠ GWRes.exn := by
        rw [ho]
        intro hc
        exact GWRes.noConfusion hc
      cases hpat : extract_spec_patterns o.ragRecords with
      | nil =>
        rw [fix_row_run o row hpat hne]
        have hlog := (stage_blank o h).2
        show GatewayCall.fixSpec ∉
            [GatewayCall.predictItem, GatewayCall.ragRetrieve] ++
              stageLog o (row.spec_pred.getD []) ∧
          GatewayCall.removeMulti ∉
            [GatewayCall.predictItem, GatewayCall.ragRetrieve] ++
              stageLog o (row.spec_pred.getD []) ∧
          GatewayCall.validateSpec ∉
            [GatewayCall.predictItem, GatewayCall.ragRetrieve] ++
              stageLog o (row.spec_pred.getD [])
        rw [hlog]
        exact ⟨by decide, by decide, by decide⟩
      | cons p ps =>
        rw [fix_row_crash o row hpat hne]
        exact ⟨by decide, by decide, by decide⟩
    | timeout =>
      have hne : o.predictItem ≠ GWRes.exn := by
        rw [ho]
        intro hc
        exact GWRes.noConfusion hc
      cases hpat : extract_spec_patterns o.ragRecords with
      | nil =>
        rw [fix_row_run o row hpat hne]
        have hlog := (stage_blank o h).2
        show GatewayCall.fixSpec ∉
            [GatewayCall.predictItem, GatewayCall.ragRetrieve] ++
              stageLog o (row.spec_pred.getD []) ∧
          GatewayCall.removeMulti ∉
            [GatewayCall.predictItem, GatewayCall.ragRetrieve] ++
              stageLog o (row.spec_pred.getD []) ∧
          GatewayCall.validateSpec ∉
            [GatewayCall.predictItem, GatewayCall.ragRetrieve] ++
              stageLog o (row.spec_pred.getD [])
        rw [hlog]
        exact ⟨by decide, by decide, by decide⟩
      | cons p ps =>
        rw [fix_row_crash o row hpat hne]
        exact ⟨by decide, by decide, by decide⟩
  · intro o row res h hok
    cases ho : o.predictItem with
    | exn =>
      rw [fix_row_predict_exn o row ho] at hok
      exact Except.noConfusion
        (show (Except.error PyErr.gatewayError : Except PyErr FixResult) =
          Except.ok res from hok)
    | ok v =>
      have hne : o.predictItem ≠ GWRes.exn := by
        rw [ho]
        intro hc
        exact GWRes.noConfusion hc
      cases hpat : extract_spec_patterns o.ragRecords with
      | nil =>
        have hfs := (stage_blank o h).1
        have hres := fix_row_run_fst o row hpat hne res hok
        rw [hres]
        rw [hfs]
        constructor
        · rfl
        · simp
          intro hcon
          exact absurd rfl hcon
      | cons p ps =>
        rw [fix_row_crash o row hpat hne] at hok
        exact Except.noConfusion
          (show (Except.error PyErr.attributeError : Except PyErr FixResult) =
            Except.ok res from hok)
    | timeout =>
      have hne : o.predictItem ≠ GWRes.exn := by
        rw [ho]
        intro hc
        exact GWRes.noConfusion hc
      cases hpat : extract_spec_patterns o.ragRecords with
      | nil =>
        have hfs := (stage_blank o h).1
        have hres := fix_row_run_fst o row hpat hne res hok
        rw [hres]
        rw [hfs]
        constructor
        · rfl
        · simp
          intro hcon
          exact absurd rfl hcon
      | cons p ps =>
        rw [fix_row_crash o row hpat hne] at hok
        exact Except.noConfusion
          (show (Except.error PyErr.attributeError : Except PyErr FixResult) =
            Except.ok res from hok)

theorem C3_blank_spec_short_circuit_witness :
    (GatewayCall.fixSpec ∉
      (fix_row
        { predictItem := .ok "i".toList, ragRecords := [], fixSpec := .ok [],
          removeMulti := .ok [], validateSpec := .ok [] }
        { description := "d".toList, spec_pred := none,
          category := some "c".toList }).2) ∧
    ({ item_pred := some "i".toList, item_extracted := none,
       spec_pred_fixed := some [], category_fixed := some "c".toList,
       spec_changed := false,
       category_changed := false } : FixResult).spec_pred_fixed = some [] ∧
    ({ item_pred := some "i".toList, item_extracted := none,
       spec_pred_fixed := some [], category_fixed := some "c".toList,
       spec_changed := false,
       category_changed := false } : FixResult).spec_changed = false := by
  refine ⟨(C3_blank_spec_short_circuit.1
    { predictItem := .ok "i".toList, ragRecords := [], fixSpec := .ok [],
      removeMulti := .ok [], validateSpec := .ok [] }
    { description := "d".toList, spec_pred := none, category := some "c".toList }
    (by decide)).1, ?_⟩
  exact C3_blank_spec_short_circuit.2.1
    { predictItem := .ok "i".toList, ragRecords := [], fixSpec := .ok [],
      removeMulti := .ok [], validateSpec := .ok [] }
    { description := "d".toList, spec_pred := none, category := some "c".toList }
    { item_pred := some "i".toList, item_extracted := none,
      spec_pred_fixed := some [], category_fixed := some "c".toList,
      spec_changed := false, category_changed := false }
    (by decide) (by rfl)

theorem keys_align_subset (orig w : Str) :
    ∀ k ∈ keys (parseSpecS (align_spec_keys orig w)),
      k ∈ keys (parseSpecS orig) := by
  intro k hk
  by_cases h : parseSpecS orig = []
  · rw [align_spec_keys_eq, if_pos h] at hk
    have hnil : parseSpecS ([] : Str) = [] := rfl
    rw [hnil] at hk
    simp [keys] at hk
  · rw [align_parse_eq orig w h, keys_map_fst_eq] at hk
    exact hk

/-- C1 (as stated) is false on the code: when the stage-6 validate call
raises, stage 7's alignment is skipped, and `spec_pred_fixed` keeps the
key `"b"`, which is absent from the parsed original spec `"a x"`. -/
theorem C1_counterexample :
    (fix_row
      { predictItem := .ok "i".toList, ragRecords := [],
        fixSpec := .ok "a 1|b 2".toList,
        removeMulti := .ok "a 1|b 2".toList, validateSpec := .exn }
      { description := "d".toList, spec_pred := some "a x".toList,
        category := none }).1 =
      .ok { item_pred := some "i".toList, item_extracted := none,
            spec_pred_fixed := some "a 1|b 2".toList,
            category_fixed := none, spec_changed := true,
            category_changed := false } ∧
    "b".toList ∈ keys (parseSpecS "a 1|b 2".toList) ∧
    "b".toList ∉ keys (parseSpecS "a x".toList) := by
  exact ⟨rfl, by decide, by decide⟩

/-- C1 amended: stage 7 applies `align_spec_keys` to the original spec
text and stage 6's output exactly when the stage-6 gateway call does not
time out or raise (including the blank-input short-circuit), and on those
runs every key of the returned `spec_pred_fixed` is a key of the parsed
original spec; when the stage-6 call times out or raises,
`spec_pred_fixed` is stage 5's output without alignment. -/
theorem C1_align_on_validate_success :
    (∀ (o : Oracle) (row : Row) (res : FixResult) (v : Str),
      o.validateSpec = .ok v →
      (fix_row o row).1 = .ok res →
      (∃ w, res.spec_pred_fixed =
        some (align_spec_keys (row.spec_pred.getD []) (fix_spec_format w))) ∧
      (∀ sp, res.spec_pred_fixed = some sp →
        ∀ k ∈ keys (parseSpecS sp),
          k ∈ keys (parseSpecS (row.spec_pred.getD [])))) ∧
    (∀ (o : Oracle) (row : Row) (res : FixResult),
      (o.validateSpec = .timeout ∨ o.validateSpec = .exn) →
      pyBlank (stage5Spec o (row.spec_pred.getD [])) = false →
      (fix_row o row).1 = .ok res →
      res.spec_pred_fixed = some (stage5Spec o (row.spec_pred.getD []))) := by
  have hkey : ∀ (o : Oracle) (row : Row) (res : FixResult),
      (fix_row o row).1 = .ok res →
      res.spec_pred_fixed = some (finalSpec o (row.spec_pred.getD [])) := by
    intro o row res hok
    cases ho : o.predictItem with
    | exn =>
      rw [fix_row_predict_exn o row ho] at hok
      exact Except.noConfusion
        (show (Except.error PyErr.gatewayError : Except PyErr FixResult) =
          Except.ok res from hok)
    | ok v =>
      have hne : o.predictItem ≠ GWRes.exn := by
        rw [ho]
        intro hc
        exact GWRes.noConfusion hc
      cases hpat : extract_spec_patterns o.ragRecords with
      | nil =>
        have hres := fix_row_run_fst o row hpat hne res hok
        rw [hres]
      | cons p ps =>
        rw [fix_row_crash o row hpat hne] at hok
        exact Except.noConfusion
          (show (Except.error PyErr.attributeError : Except PyErr FixResult) =
            Except.ok res from hok)
    | timeout =>
      have hne : o.predictItem ≠ GWRes.exn := by
        rw [ho]
        intro hc
        exact GWRes.noConfusion hc
      cases hpat : extract_spec_patterns o.ragRecords with
      | nil =>
        have hres := fix_row_run_fst o row hpat hne res hok
        rw [hres]
      | cons p ps =>
        rw [fix_row_crash o row hpat hne] at hok
        exact Except.noConfusion
          (show (Except.error PyErr.attributeError : Except PyErr FixResult) =
            Except.ok res from hok)
  constructor
  · intro o row res v hv hok
    have hsp := hkey o row res hok
    have hfinal : ∃ w, finalSpec o (row.spec_pred.getD []) =
        align_spec_keys (row.spec_pred.getD []) (fix_spec_format w) := by
      unfold finalSpec stage6Res
      by_cases hb : pyBlank (stage5Spec o (row.spec_pred.getD [])) = true
      · rw [if_pos hb]
        exact ⟨[], rfl⟩
      · rw [if_neg hb, hv]
        exact ⟨v, rfl⟩
    obtain ⟨w, hw⟩ := hfinal
    constructor
    · exact ⟨w, by rw [hsp, hw]⟩
    · intro sp hspp k hk
      have : sp = align_spec_keys (row.spec_pred.getD []) (fix_spec_format w) := by
        rw [hspp] at hsp
        rw [hw] at hsp
        simpa using hsp
      rw [this] at hk
      exact keys_align_subset _ _ k hk
  · intro o row res hv hb hok
    have hsp := hkey o row res hok
    have hfinal : finalSpec o (row.spec_pred.getD []) =
        stage5Spec o (row.spec_pred.getD []) := by
      unfold finalSpec stage6Res
      rw [if_neg (by rw [hb]; intro hc; exact Bool.noConfusion hc)]
      rcases hv with h | h
      · rw [h]
      · rw [h]
    rw [hsp, hfinal]

theorem C1_align_on_validate_success_witness :
    "a".toList ∈ keys (parseSpecS "a x".toList) :=
  (C1_align_on_validate_success.1
    { predictItem := .ok "i".toList, ragRecords := [],
      fixSpec := .ok "a 1".toList, removeMulti := .ok "a 1".toList,
      validateSpec := .ok "a  Q|c 3".toList }
    { description := "d".toList, spec_pred := some "a x".toList,
      category := none }
    { item_pred := some "i".toList, item_extracted := none,
      spec_pred_fixed := some "a q".toList, category_fixed := none,
      spec_changed := true, category_changed := false }
    "a  Q|c 3".toList rfl (by rfl)).2 "a q".toList rfl "a".toList (by decide)

/-! ## Batch lemmas -/

theorem fix_batch_from_getElem? (oracles : Nat → Oracle) (i : Nat)
    (rows : List Row) (j : Nat) :
    (fix_batch_from oracles i rows)[j]? =
      (rows[j]?).map (fun row => rowOutcome (oracles (i + j)) row) := by
  induction rows generalizing i j with
  | nil => simp [fix_batch_from]
  | cons row rest ih =>
    cases j with
    | zero => simp [fix_batch_from]
    | succ j' =>
      simp only [fix_batch_from, List.getElem?_cons_succ]
      rw [ih (i + 1) j']
      have harith : i + 1 + j' = i + (j' + 1) := by omega
      rw [harith]

theorem fix_batch_getElem? (oracles : Nat → Oracle) (rows : List Row)
    (j : Nat) :
    (fix_batch oracles rows)[j]? =
      (rows[j]?).map (fun row => rowOutcome (oracles j) row) := by
  unfold fix_batch
  rw [fix_batch_from_getElem?]
  have : (0 : Nat) + j = j := by omega
  rw [this]

/-- C4: a record whose pipeline raises is converted at the batch boundary
into the fallback FixResult (item fields absent, original spec and
category unchanged, change flags false), and every other record of the
batch still produces its own pipeline result. -/
theorem C4_batch_fallback_isolation :
    ∀ (oracles : Nat → Oracle) (rows : List Row) (j : Nat) (rj : Row)
      (e : PyErr),
      rows[j]? = some rj →
      (fix_row (oracles j) rj).1 = .error e →
      (fix_batch oracles rows)[j]? = some (fallback_result rj) ∧
      fallback_result rj =
        { item_pred := none, item_extracted := none,
          spec_pred_fixed := rj.spec_pred, category_fixed := rj.category,
          spec_changed := false, category_changed := false } ∧
      (∀ (i : Nat) (ri : Row) (res : FixResult), i ≠ j →
        rows[i]? = some ri →
        (fix_row (oracles i) ri).1 = .ok res →
        (fix_batch oracles rows)[i]? = some res) := by
  intro oracles rows j rj e hj herr
  refine ⟨?_, rfl, ?_⟩
  · rw [fix_batch_getElem?, hj]
    show some (rowOutcome (oracles j) rj) = _
    unfold rowOutcome
    rw [herr]
  · intro i ri res _ hi hok
    rw [fix_batch_getElem?, hi]
    show some (rowOutcome (oracles i) ri) = _
    unfold rowOutcome
    rw [hok]

theorem C4_batch_fallback_isolation_witness :
    (fix_batch
      (fun i => if i = 0 then
        { predictItem := .exn, ragRecords := [], fixSpec := .ok [],
          removeMulti := .ok [], validateSpec := .ok [] }
        else
        { predictItem := .ok "i".toList, ragRecords := [], fixSpec := .ok [],
          removeMulti := .ok [], validateSpec := .ok [] })
      [{ description := "d".toList, spec_pred := some "a x".toList,
         category := none },
       { description := "e".toList, spec_pred := none, category := none }])[0]? =
      some (fallback_result
        { description := "d".toList, spec_pred := some "a x".toList,
          category := none }) ∧
    (fix_batch
      (fun i => if i = 0 then
        { predictItem := .exn, ragRecords := [], fixSpec := .ok [],
          removeMulti := .ok [], validateSpec := .ok [] }
        else
        { predictItem := .ok "i".toList, ragRecords := [], fixSpec := .ok [],
          removeMulti := .ok [], validateSpec := .ok [] })
      [{ description := "d".toList, spec_pred := some "a x".toList,
         category := none },
       { description := "e".toList, spec_pred := none, category := none }])[1]? =
      some { item_pred := some "i".toList, item_extracted := none,
             spec_pred_fixed := some [], category_fixed := none,
             spec_changed := false, category_changed := false } := by
  have h := C4_batch_fallback_isolation
    (fun i => if i = 0 then
      { predictItem := .exn, ragRecords := [], fixSpec := .ok [],
        removeMulti := .ok [], validateSpec := .ok [] }
      else
      { predictItem := .ok "i".toList, ragRecords := [], fixSpec := .ok [],
        removeMulti := .ok [], validateSpec := .ok [] })
    [{ description := "d".toList, spec_pred := some "a x".toList,
       category := none },
     { description := "e".toList, spec_pred := none, category := none }]
    0
    { description := "d".toList, spec_pred := some "a x".toList,
      category := none }
    .gatewayError rfl (by rfl)
  refine ⟨h.1, ?_⟩
  exact h.2.2 1
    { description := "e".toList, spec_pred := none, category := none }
    { item_pred := some "i".toList, item_extracted := none,
      spec_pred_fixed := some [], category_fixed := none,
      spec_changed := false, category_changed := false }
    (by decide) rfl (by rfl)

/-! ## Completion-order lemmas -/

theorem foldl_set_getElem? {α : Type} (g : Nat → α) (order : List Nat)
    (init : List α) (j : Nat) :
    (order.foldl (fun arr i => arr.set i (g i)) init)[j]? =
      if j ∈ order ∧ j < init.length then some (g j) else init[j]? := by
  induction order generalizing init with
  | nil => simp
  | cons i rest ih =>
    rw [List.foldl_cons, ih]
    by_cases hmem : j ∈ rest
    · by_cases hlen : j < init.length
      · rw [if_pos ⟨hmem, by simpa using hlen⟩,
          if_pos ⟨List.mem_cons_of_mem _ hmem, hlen⟩]
      · rw [if_neg (by simp [hlen]), if_neg (by simp [hlen])]
        have h1 : (init.set i (g i))[j]? = none :=
          List.getElem?_eq_none (by simpa using Nat.le_of_not_lt hlen)
        have h2 : init[j]? = none :=
          List.getElem?_eq_none (Nat.le_of_not_lt hlen)
        rw [h1, h2]
    · rw [if_neg (by simp [hmem])]
      by_cases hij : i = j
      · subst hij
        by_cases hlen : i < init.length
        · rw [List.getElem?_set_self hlen,
            if_pos ⟨List.mem_cons_self _ _, hlen⟩]
        · have h1 : (init.set i (g i))[i]? = none :=
            List.getElem?_eq_none (by simpa using Nat.le_of_not_lt hlen)
          have h2 : init[i]? = none :=
            List.getElem?_eq_none (Nat.le_of_not_lt hlen)
          rw [h1, if_neg (by simp [hlen]), h2]
      · rw [List.getElem?_set_ne hij,
          if_neg (by
            rintro ⟨hmem2, _⟩
            rcases List.mem_cons.mp hmem2 with h | h
            · exact hij h.symm
            · exact hmem h)]

/-- C7: the result slot written for each record is determined solely by
the record's submission index — for every completion order (any
permutation of the indices, as produced by any concurrency cap and any
gateway latencies), the filled slot array equals the in-order batch
results. -/
theorem C7_order_preservation :
    ∀ (rows : List Row) (oracles : Nat → Oracle) (order : List Nat),
      order.Perm (List.range rows.length) →
      writeSlots rows oracles order = (fix_batch oracles rows).map some := by
  intro rows oracles order hperm
  have hmem : ∀ j, j ∈ order ↔ j < rows.length := by
    intro j
    rw [hperm.mem_iff, List.mem_range]
  apply List.ext_getElem?
  intro j
  unfold writeSlots
  rw [foldl_set_getElem? (slotValue rows oracles) order _ j]
  rw [List.getElem?_map, fix_batch_getElem?]
  by_cases hj : j < rows.length
  · rw [if_pos ⟨(hmem j).mpr hj, by simpa using hj⟩]
    unfold slotValue
    cases hrow : rows[j]? with
    | none =>
      exact absurd (List.getElem?_eq_none_iff.mp hrow) (by omega)
    | some row => rfl
  · rw [if_neg (by
      rintro ⟨h1, _⟩
      exact hj ((hmem j).mp h1))]
    have h1 : rows[j]? = none := List.getElem?_eq_none (Nat.le_of_not_lt hj)
    rw [h1]
    simp [List.getElem?_replicate, hj]

theorem C7_order_preservation_witness :
    writeSlots
      [{ description := "d".toList, spec_pred := some "a x".toList,
         category := none },
       { description := "e".toList, spec_pred := none, category := none }]
      (fun _ =>
        { predictItem := .ok "i".toList, ragRecords := [], fixSpec := .ok [],
          removeMulti := .ok [], validateSpec := .ok [] })
      [1, 0] =
      (fix_batch
        (fun _ =>
          { predictItem := .ok "i".toList, ragRecords := [],
            fixSpec := .ok [], removeMulti := .ok [],
            validateSpec := .ok [] })
        [{ description := "d".toList, spec_pred := some "a x".toList,
           category := none },
         { description := "e".toList, spec_pred := none,
           category := none }]).map some :=
  C7_order_preservation _ _ [1, 0] (by decide)

end PTVN
